import Mathlib

/-!
Shallow embedding of the byte-transformation and membership-filter core of
goldmark's `util` package (src/util/util.go), together with proofs checking the
natural-language specification against it.

Modelling conventions:
- Go `[]byte` values are `List Nat` (each entry a byte value).
- Go slice expressions `v[a:b]` are `sl v a b`.
- Indexed `for` loops are recursive functions over the index `i`, with an
  explicit fuel argument that strictly exceeds the number of remaining
  iterations (every iteration advances `i` by at least one, so a fuel of
  `length + 1` is never exhausted when starting from `i = 0`).
- `[256]uint8` classification tables are the corresponding 256-entry list
  literals, copied verbatim from the source.
-/

namespace GM

/-- Go slice expression `v[a:b]` (elements at indices `a ≤ k < b`). -/
def sl (v : List Nat) (a b : Nat) : List Nat := (v.take b).drop a

/-! ## Byte classification tables (src/util/util.go, `punctTable`,
`urlEscapeTable`, `utf8lenTable`) copied entry-for-entry from the source. -/

def punctTable : List Nat := [
  0, 0, 0, 0, 0, 0, 0, 0, 0, 0, 0, 0, 0, 0, 0, 0, 0, 0, 0, 0, 0, 0, 0, 0, 0, 0, 0, 0, 0, 0,
  0, 0, 0, 1, 1, 1, 1, 1, 1, 1, 1, 1, 1, 1, 1, 1, 1, 1, 0, 0, 0, 0, 0, 0, 0, 0, 0, 0, 1, 1,
  1, 1, 1, 1, 1, 0, 0, 0, 0, 0, 0, 0, 0, 0, 0, 0, 0, 0, 0, 0, 0, 0, 0, 0, 0, 0, 0, 0, 0, 0,
  0, 1, 1, 1, 1, 1, 1, 0, 0, 0, 0, 0, 0, 0, 0, 0, 0, 0, 0, 0, 0, 0, 0, 0, 0, 0, 0, 0, 0, 0,
  0, 0, 0, 1, 1, 1, 1, 0, 0, 0, 0, 0, 0, 0, 0, 0, 0, 0, 0, 0, 0, 0, 0, 0, 0, 0, 0, 0, 0, 0,
  0, 0, 0, 0, 0, 0, 0, 0, 0, 0, 0, 0, 0, 0, 0, 0, 0, 0, 0, 0, 0, 0, 0, 0, 0, 0, 0, 0, 0, 0,
  0, 0, 0, 0, 0, 0, 0, 0, 0, 0, 0, 0, 0, 0, 0, 0, 0, 0, 0, 0, 0, 0, 0, 0, 0, 0, 0, 0, 0, 0,
  0, 0, 0, 0, 0, 0, 0, 0, 0, 0, 0, 0, 0, 0, 0, 0, 0, 0, 0, 0, 0, 0, 0, 0, 0, 0, 0, 0, 0, 0,
  0, 0, 0, 0, 0, 0, 0, 0, 0, 0, 0, 0, 0, 0, 0, 0]

def urlEscapeTable : List Nat := [
  0, 0, 0, 0, 0, 0, 0, 0, 0, 0, 0, 0, 0, 0, 0, 0, 0, 0, 0, 0, 0, 0, 0, 0, 0, 0, 0, 0, 0, 0,
  0, 0, 0, 1, 0, 1, 1, 0, 1, 1, 1, 1, 1, 1, 1, 1, 1, 1, 1, 1, 1, 1, 1, 1, 1, 1, 1, 1, 1, 1,
  0, 1, 0, 1, 1, 1, 1, 1, 1, 1, 1, 1, 1, 1, 1, 1, 1, 1, 1, 1, 1, 1, 1, 1, 1, 1, 1, 1, 1, 1,
  1, 0, 0, 0, 0, 1, 0, 1, 1, 1, 1, 1, 1, 1, 1, 1, 1, 1, 1, 1, 1, 1, 1, 1, 1, 1, 1, 1, 1, 1,
  1, 1, 1, 0, 0, 0, 1, 0, 0, 0, 0, 0, 0, 0, 0, 0, 0, 0, 0, 0, 0, 0, 0, 0, 0, 0, 0, 0, 0, 0,
  0, 0, 0, 0, 0, 0, 0, 0, 0, 0, 0, 0, 0, 0, 0, 0, 0, 0, 0, 0, 0, 0, 0, 0, 0, 0, 0, 0, 0, 0,
  0, 0, 0, 0, 0, 0, 0, 0, 0, 0, 0, 0, 0, 0, 0, 0, 0, 0, 0, 0, 0, 0, 0, 0, 0, 0, 0, 0, 0, 0,
  0, 0, 0, 0, 0, 0, 0, 0, 0, 0, 0, 0, 0, 0, 0, 0, 0, 0, 0, 0, 0, 0, 0, 0, 0, 0, 0, 0, 0, 0,
  0, 0, 0, 0, 0, 0, 0, 0, 0, 0, 0, 0, 0, 0, 0, 0]

def utf8lenTable : List Nat := [
  1, 1, 1, 1, 1, 1, 1, 1, 1, 1, 1, 1, 1, 1, 1, 1, 1, 1, 1, 1, 1, 1, 1, 1, 1, 1, 1, 1, 1, 1,
  1, 1, 1, 1, 1, 1, 1, 1, 1, 1, 1, 1, 1, 1, 1, 1, 1, 1, 1, 1, 1, 1, 1, 1, 1, 1, 1, 1, 1, 1,
  1, 1, 1, 1, 1, 1, 1, 1, 1, 1, 1, 1, 1, 1, 1, 1, 1, 1, 1, 1, 1, 1, 1, 1, 1, 1, 1, 1, 1, 1,
  1, 1, 1, 1, 1, 1, 1, 1, 1, 1, 1, 1, 1, 1, 1, 1, 1, 1, 1, 1, 1, 1, 1, 1, 1, 1, 1, 1, 1, 1,
  1, 1, 1, 1, 1, 1, 1, 1, 99, 99, 99, 99, 99, 99, 99, 99, 99, 99, 99, 99, 99, 99, 99, 99, 99,
  99, 99, 99, 99, 99, 99, 99, 99, 99, 99, 99, 99, 99, 99, 99, 99, 99, 99, 99, 99, 99, 99, 99,
  99, 99, 99, 99, 99, 99, 99, 99, 99, 99, 99, 99, 99, 99, 99, 99, 99, 99, 99, 99, 99, 99, 99,
  99, 99, 99, 2, 2, 2, 2, 2, 2, 2, 2, 2, 2, 2, 2, 2, 2, 2, 2, 2, 2, 2, 2, 2, 2, 2, 2, 2, 2,
  2, 2, 2, 2, 3, 3, 3, 3, 3, 3, 3, 3, 3, 3, 3, 3, 3, 3, 3, 3, 4, 4, 4, 4, 4, 4, 4, 4, 99, 99,
  99, 99, 99, 99, 99, 99]

/-- `IsPunct` (src/util/util.go): the byte is a punctuation per `punctTable`. -/
def IsPunct (c : Nat) : Bool := punctTable.getD c 0 = 1

/-- `IsNumeric` (src/util/util.go). -/
def IsNumeric (c : Nat) : Bool := 48 ≤ c ∧ c ≤ 57

/-- `IsHexDecimal` (src/util/util.go). -/
def IsHexDecimal (c : Nat) : Bool :=
  (48 ≤ c ∧ c ≤ 57) ∨ (97 ≤ c ∧ c ≤ 102) ∨ (65 ≤ c ∧ c ≤ 70)

/-- `IsAlphaNumeric` (src/util/util.go). -/
def IsAlphaNumeric (c : Nat) : Bool :=
  (97 ≤ c ∧ c ≤ 122) ∨ (65 ≤ c ∧ c ≤ 90) ∨ (48 ≤ c ∧ c ≤ 57)

/-! ## CopyOnWriteBuffer (src/util/util.go lines 17-95) -/

structure CopyOnWriteBuffer where
  buffer : List Nat
  copied : Bool
deriving Repr, DecidableEq

/-- `NewCopyOnWriteBuffer`. -/
def NewCopyOnWriteBuffer (buffer : List Nat) : CopyOnWriteBuffer :=
  { buffer := buffer, copied := false }

/-- `CopyOnWriteBuffer.Write`: on first mutation, allocates a fresh empty
buffer (the capacity hint does not affect contents) and appends. -/
def CopyOnWriteBuffer.Write (b : CopyOnWriteBuffer) (value : List Nat) : CopyOnWriteBuffer :=
  let b := if !b.copied then { buffer := ([] : List Nat), copied := true } else b
  { b with buffer := b.buffer ++ value }

/-- `CopyOnWriteBuffer.WriteString` (strings are byte lists here). -/
def CopyOnWriteBuffer.WriteString (b : CopyOnWriteBuffer) (value : List Nat) : CopyOnWriteBuffer :=
  b.Write value

/-- `CopyOnWriteBuffer.Append`: on first mutation, copies the current content
into an owned buffer, then appends. -/
def CopyOnWriteBuffer.Append (b : CopyOnWriteBuffer) (value : List Nat) : CopyOnWriteBuffer :=
  let b := if !b.copied then { buffer := b.buffer, copied := true } else b
  { b with buffer := b.buffer ++ value }

/-- `CopyOnWriteBuffer.AppendString`. -/
def CopyOnWriteBuffer.AppendString (b : CopyOnWriteBuffer) (value : List Nat) : CopyOnWriteBuffer :=
  b.Append value

/-- `CopyOnWriteBuffer.WriteByte` (the Go method returns a nil error, dropped). -/
def CopyOnWriteBuffer.WriteByte (b : CopyOnWriteBuffer) (c : Nat) : CopyOnWriteBuffer :=
  let b := if !b.copied then { buffer := ([] : List Nat), copied := true } else b
  { b with buffer := b.buffer ++ [c] }

/-- `CopyOnWriteBuffer.AppendByte`. -/
def CopyOnWriteBuffer.AppendByte (b : CopyOnWriteBuffer) (c : Nat) : CopyOnWriteBuffer :=
  let b := if !b.copied then { buffer := b.buffer, copied := true } else b
  { b with buffer := b.buffer ++ [c] }

/-- `CopyOnWriteBuffer.Bytes`. -/
def CopyOnWriteBuffer.Bytes (b : CopyOnWriteBuffer) : List Nat := b.buffer

/-- `CopyOnWriteBuffer.IsCopied`. -/
def CopyOnWriteBuffer.IsCopied (b : CopyOnWriteBuffer) : Bool := b.copied

/-! ## UTF-8 helpers (Go standard library `unicode/utf8`, used by the source).
Runes are `Int` (Go's `rune` is `int32`; all values fitting either here). -/

/-- Models `utf8.RuneStart`: a byte that is not a continuation byte. -/
def runeStart (c : Nat) : Bool := c &&& 0xC0 ≠ 0x80

/-- Models `utf8.ValidRune`: a Unicode scalar value (not a surrogate, in range). -/
def validRune (r : Int) : Bool :=
  (0 ≤ r ∧ r < 0xD800) ∨ (0xDFFF < r ∧ r ≤ 0x10FFFF)

/-- `ToValidRune` (src/util/util.go): 0xFFFD for zero or invalid runes. -/
def ToValidRune (v : Int) : Int :=
  if v = 0 ∨ ¬ validRune v then 0xFFFD else v

/-- Go conversion `rune(v)` for an unsigned `v`: truncate to 32 bits and
reinterpret as a signed `int32`. -/
def toRune32 (v : Nat) : Int :=
  let w : Nat := v % 2 ^ 32
  if w < 2 ^ 31 then (w : Int) else (w : Int) - 2 ^ 32

/-- Models `utf8.EncodeRune`: standard UTF-8 encoding; surrogates and
out-of-range runes encode U+FFFD. -/
def utf8EncodeRune (r : Int) : List Nat :=
  if 0 ≤ r ∧ r < 0x80 then [r.toNat]
  else if 0 ≤ r ∧ r < 0x800 then
    [0xC0 ||| (r.toNat >>> 6), 0x80 ||| (r.toNat &&& 0x3F)]
  else if r < 0 ∨ (0xD800 ≤ r ∧ r ≤ 0xDFFF) ∨ 0x10FFFF < r then [0xEF, 0xBF, 0xBD]
  else if r < 0x10000 then
    [0xE0 ||| (r.toNat >>> 12), 0x80 ||| ((r.toNat >>> 6) &&& 0x3F), 0x80 ||| (r.toNat &&& 0x3F)]
  else
    [0xF0 ||| (r.toNat >>> 18), 0x80 ||| ((r.toNat >>> 12) &&& 0x3F),
     0x80 ||| ((r.toNat >>> 6) &&& 0x3F), 0x80 ||| (r.toNat &&& 0x3F)]

/-- Continuation byte test used by `decodeRune`. -/
def isCont (c : Nat) : Bool := 0x80 ≤ c ∧ c ≤ 0xBF

/-- Second-byte acceptance ranges of Go's `unicode/utf8` decoder, indexed by
the leading byte. -/
def acceptLo (c : Nat) : Nat :=
  if c = 0xE0 then 0xA0 else if c = 0xF0 then 0x90 else 0x80

def acceptHi (c : Nat) : Nat :=
  if c = 0xED then 0x9F else if c = 0xF4 then 0x8F else 0xBF

/-- Models `utf8.DecodeRune`: returns the decoded rune and its size in bytes;
on malformed input returns (U+FFFD, 1) (or (U+FFFD, 0) on empty input). -/
def decodeRune (p : List Nat) : Int × Nat :=
  match p with
  | [] => (0xFFFD, 0)
  | c0 :: rest =>
    if c0 < 0x80 then ((c0 : Int), 1)
    else if 0xC2 ≤ c0 ∧ c0 ≤ 0xDF then
      match rest with
      | c1 :: _ =>
        if isCont c1 then
          ((((c0 &&& 0x1F) <<< 6) ||| (c1 &&& 0x3F) : Nat), 2)
        else (0xFFFD, 1)
      | [] => (0xFFFD, 1)
    else if 0xE0 ≤ c0 ∧ c0 ≤ 0xEF then
      match rest with
      | c1 :: c2 :: _ =>
        if acceptLo c0 ≤ c1 ∧ c1 ≤ acceptHi c0 ∧ isCont c2 then
          ((((c0 &&& 0x0F) <<< 12) ||| ((c1 &&& 0x3F) <<< 6) ||| (c2 &&& 0x3F) : Nat), 3)
        else (0xFFFD, 1)
      | _ => (0xFFFD, 1)
    else if 0xF0 ≤ c0 ∧ c0 ≤ 0xF4 then
      match rest with
      | c1 :: c2 :: c3 :: _ =>
        if acceptLo c0 ≤ c1 ∧ c1 ≤ acceptHi c0 ∧ isCont c2 ∧ isCont c3 then
          ((((c0 &&& 0x07) <<< 18) ||| ((c1 &&& 0x3F) <<< 12) |||
            ((c2 &&& 0x3F) <<< 6) ||| (c3 &&& 0x3F) : Nat), 4)
        else (0xFFFD, 1)
      | _ => (0xFFFD, 1)
    else (0xFFFD, 1)

/-! ## ReadWhile (src/util/util.go lines 104-116) -/

/-- Loop of `ReadWhile`, scanning from `j` while `pred` holds; `ok` records
whether any byte passed. Fuel strictly exceeds `limit - j` at the call site. -/
def ReadWhileAux (source : List Nat) (limit : Nat) (pred : Nat → Bool) :
    Nat → Nat → Bool → Nat × Bool
  | 0, j, ok => (j, ok)
  | fuel + 1, j, ok =>
    if j < limit then
      if pred (source.getD j 0) then ReadWhileAux source limit pred fuel (j + 1) true
      else (j, ok)
    else (j, ok)

/-- `ReadWhile` (src/util/util.go): reads `source` in `[index.1, index.2)`
while `pred` is true; returns the stop index and whether any byte was read. -/
def ReadWhile (source : List Nat) (index : Nat × Nat) (pred : Nat → Bool) : Nat × Bool :=
  ReadWhileAux source index.2 pred (index.2 + 1 - index.1) index.1 false

/-! ## strconv.ParseUint model (Go standard library, used by the source) -/

def hexVal (c : Nat) : Nat :=
  if 48 ≤ c ∧ c ≤ 57 then c - 48
  else if 97 ≤ c ∧ c ≤ 102 then c - 97 + 10
  else if 65 ≤ c ∧ c ≤ 70 then c - 65 + 10
  else 0

/-- Range clamping of `strconv.ParseUint` with `bitSize` 32: on overflow the
Go function returns the maximum value together with `ErrRange` (the source
discards the error and keeps the value). -/
def clamp32 (v : Nat) : Nat := if 2 ^ 32 - 1 < v then 2 ^ 32 - 1 else v

/-- Modelled from Go stdlib `strconv.ParseUint(s, base, 32)` for the
digit-only strings the scanners pass it (hex digits when `base = 16`, decimal
digits when `base = 0`). `base = 0` performs C-style base detection: a leading
`0` switches to octal, where a digit `8` or `9` is a syntax error. Errors are
discarded by the source, so a syntax error yields the returned value 0 and a
range error yields 2^32 - 1. -/
def parseUint (s : List Nat) (base : Nat) : Nat :=
  if base = 16 then clamp32 (s.foldl (fun a c => a * 16 + hexVal c) 0)
  else
    match s with
    | [] => 0
    | c :: rest =>
      if c = 48 ∧ rest ≠ [] then
        if rest.all (fun d => 48 ≤ d ∧ d ≤ 55) then
          clamp32 (rest.foldl (fun a d => a * 8 + (d - 48)) 0)
        else 0
      else clamp32 (s.foldl (fun a d => a * 10 + (d - 48)) 0)

/-! ## EscapeHTML (src/util/util.go lines 525-550) -/

/-- `htmlEscapeTable` (src/util/util.go line 525): the 256-entry table is nil
everywhere except the four escaped bytes `"` (34), `&` (38), `<` (60), `>`
(62). -/
def htmlEscapeTable (b : Nat) : Option (List Nat) :=
  if b = 34 then some [38, 113, 117, 111, 116, 59]
  else if b = 38 then some [38, 97, 109, 112, 59]
  else if b = 60 then some [38, 108, 116, 59]
  else if b = 62 then some [38, 103, 116, 59]
  else none

/-- `EscapeHTMLByte` (src/util/util.go). -/
def EscapeHTMLByte (b : Nat) : Option (List Nat) := htmlEscapeTable b

/-- Scan loop of `EscapeHTML` (src/util/util.go lines 534-550). -/
def escapeHTMLLoop (v : List Nat) : Nat → CopyOnWriteBuffer → Nat → Nat → CopyOnWriteBuffer
  | 0, cob, _, _ => cob
  | fuel + 1, cob, n, i =>
    if i < v.length then
      match htmlEscapeTable (v.getD i 0) with
      | some escaped =>
        escapeHTMLLoop v fuel ((cob.Write (sl v n i)).Write escaped) (i + 1) (i + 1)
      | none => escapeHTMLLoop v fuel cob n (i + 1)
    else if cob.IsCopied then cob.Write (sl v n v.length) else cob

def EscapeHTMLCob (v : List Nat) : CopyOnWriteBuffer :=
  escapeHTMLLoop v (v.length + 1) (NewCopyOnWriteBuffer v) 0 0

/-- `EscapeHTML` (src/util/util.go lines 534-550). -/
def EscapeHTML (v : List Nat) : List Nat := (EscapeHTMLCob v).Bytes

/-! ## UnescapePunctuations (src/util/util.go lines 553-572) -/

/-- Scan loop of `UnescapePunctuations`. -/
def unescapePunctuationsLoop (source : List Nat) :
    Nat → CopyOnWriteBuffer → Nat → Nat → CopyOnWriteBuffer
  | 0, cob, _, _ => cob
  | fuel + 1, cob, n, i =>
    let limit := source.length
    if i < limit then
      if i < limit - 1 ∧ source.getD i 0 = 92 ∧ IsPunct (source.getD (i + 1) 0) then
        unescapePunctuationsLoop source fuel
          ((cob.Write (sl source n i)).WriteByte (source.getD (i + 1) 0)) (i + 2) (i + 2)
      else unescapePunctuationsLoop source fuel cob n (i + 1)
    else if cob.IsCopied then cob.Write (sl source n limit) else cob

def UnescapePunctuationsCob (source : List Nat) : CopyOnWriteBuffer :=
  unescapePunctuationsLoop source (source.length + 1) (NewCopyOnWriteBuffer source) 0 0

/-- `UnescapePunctuations` (src/util/util.go lines 553-572). -/
def UnescapePunctuations (source : List Nat) : List Nat := (UnescapePunctuationsCob source).Bytes

/-! ## ResolveNumericReferences (src/util/util.go lines 575-623) -/

/-- Scan loop of `ResolveNumericReferences`. Failure paths set `i = next - 1`
in the source and the `for` then increments `i`, so they recurse at `next`. -/
def resolveNumericReferencesLoop (source : List Nat) :
    Nat → CopyOnWriteBuffer → Nat → Nat → CopyOnWriteBuffer
  | 0, cob, _, _ => cob
  | fuel + 1, cob, n, i =>
    let limit := source.length
    if i < limit then
      if source.getD i 0 = 38 then
        let pos := i
        let next := i + 1
        if next < limit ∧ source.getD next 0 = 35 then
          let nnext := next + 1
          if nnext < limit then
            let nc := source.getD nnext 0
            if (nnext < limit ∧ nc = 120) ∨ nc = 88 then
              let start := nnext + 1
              let jok := ReadWhile source (start, limit) IsHexDecimal
              if jok.2 ∧ jok.1 < limit ∧ source.getD jok.1 0 = 59 then
                let v := parseUint (sl source start jok.1) 16
                resolveNumericReferencesLoop source fuel
                  ((cob.Write (sl source n pos)).Write (utf8EncodeRune (ToValidRune (toRune32 v))))
                  (jok.1 + 1) (jok.1 + 1)
              else resolveNumericReferencesLoop source fuel cob n next
            else if 48 ≤ nc ∧ nc ≤ 57 then
              let start := nnext
              let jok := ReadWhile source (start, limit) IsNumeric
              if jok.2 ∧ jok.1 < limit ∧ jok.1 - start < 8 ∧ source.getD jok.1 0 = 59 then
                let v := parseUint (sl source start jok.1) 0
                resolveNumericReferencesLoop source fuel
                  ((cob.Write (sl source n pos)).Write (utf8EncodeRune (ToValidRune (toRune32 v))))
                  (jok.1 + 1) (jok.1 + 1)
              else resolveNumericReferencesLoop source fuel cob n next
            else resolveNumericReferencesLoop source fuel cob n next
          else resolveNumericReferencesLoop source fuel cob n next
        else resolveNumericReferencesLoop source fuel cob n next
      else resolveNumericReferencesLoop source fuel cob n (i + 1)
    else if cob.IsCopied then cob.Write (sl source n limit) else cob

def ResolveNumericReferencesCob (source : List Nat) : CopyOnWriteBuffer :=
  resolveNumericReferencesLoop source (source.length + 1) (NewCopyOnWriteBuffer source) 0 0

/-- `ResolveNumericReferences` (src/util/util.go lines 575-623). -/
def ResolveNumericReferences (source : List Nat) : List Nat :=
  (ResolveNumericReferencesCob source).Bytes

/-! ## ResolveEntityNames (src/util/util.go lines 626-656) -/

/-- Modelled from the spec: the named-HTML-entity lookup service
(`LookUpHTML5EntityByName` and its entity table live outside src/; the spec
describes it as an exact-match lookup from an ASCII name to that entity's
defined character expansion, and its round-trip property names the four
references `quot`, `amp`, `lt`, `gt` with their standard HTML expansions).
The result is the entity's `Characters` field. -/
def LookUpHTML5EntityByName (name : List Nat) : Option (List Nat) :=
  if name = [113, 117, 111, 116] then some [34]
  else if name = [97, 109, 112] then some [38]
  else if name = [108, 116] then some [60]
  else if name = [103, 116] then some [62]
  else none

/-- Scan loop of `ResolveEntityNames`. -/
def resolveEntityNamesLoop (source : List Nat) :
    Nat → CopyOnWriteBuffer → Nat → Nat → CopyOnWriteBuffer
  | 0, cob, _, _ => cob
  | fuel + 1, cob, n, i =>
    let limit := source.length
    if i < limit then
      if source.getD i 0 = 38 then
        let pos := i
        let next := i + 1
        if ¬ (next < limit ∧ source.getD next 0 = 35) then
          let start := next
          let jok := ReadWhile source (start, limit) IsAlphaNumeric
          if jok.2 ∧ jok.1 < limit ∧ source.getD jok.1 0 = 59 then
            match LookUpHTML5EntityByName (sl source start jok.1) with
            | some characters =>
              resolveEntityNamesLoop source fuel
                ((cob.Write (sl source n pos)).Write characters) (jok.1 + 1) (jok.1 + 1)
            | none => resolveEntityNamesLoop source fuel cob n next
          else resolveEntityNamesLoop source fuel cob n next
        else resolveEntityNamesLoop source fuel cob n next
      else resolveEntityNamesLoop source fuel cob n (i + 1)
    else if cob.IsCopied then cob.Write (sl source n limit) else cob

def ResolveEntityNamesCob (source : List Nat) : CopyOnWriteBuffer :=
  resolveEntityNamesLoop source (source.length + 1) (NewCopyOnWriteBuffer source) 0 0

/-- `ResolveEntityNames` (src/util/util.go lines 626-656). -/
def ResolveEntityNames (source : List Nat) : List Nat := (ResolveEntityNamesCob source).Bytes

/-! ## URLEscape (src/util/util.go lines 658-722) -/

def upperHexDigit (d : Nat) : Nat := if d < 10 then 48 + d else 65 + (d - 10)

/-- Modelled from Go stdlib `net/url.QueryEscape`: alphanumerics and
`-` `_` `.` `~` stay as they are, a space becomes `+`, every other byte is
percent-encoded with uppercase hex digits. -/
def queryEscape (bs : List Nat) : List Nat :=
  bs.flatMap (fun c =>
    if (97 ≤ c ∧ c ≤ 122) ∨ (65 ≤ c ∧ c ≤ 90) ∨ (48 ≤ c ∧ c ≤ 57) ∨
       c = 45 ∨ c = 95 ∨ c = 46 ∨ c = 126 then [c]
    else if c = 32 then [43]
    else [37, upperHexDigit (c / 16), upperHexDigit (c % 16)])

def htmlSpace : List Nat := [37, 50, 48]

/-- Scan loop of `URLEscape` (src/util/util.go lines 677-721). The percent
branch tests `IsHexDecimal(v[i+1])` twice, exactly as the source does;
`v[i+2]` is never examined. The clamp `u8len = int8(len(v) - 1)` cannot
overflow `int8` because it only runs when `u8len > len(v)`, i.e.
`len(v) ≤ 3`. -/
def urlEscapeLoop (v : List Nat) : Nat → CopyOnWriteBuffer → Nat → Nat → CopyOnWriteBuffer
  | 0, cob, _, _ => cob
  | fuel + 1, cob, n, i =>
    let limit := v.length
    if i < limit then
      let c := v.getD i 0
      if urlEscapeTable.getD c 0 = 1 then urlEscapeLoop v fuel cob n (i + 1)
      else if c = 37 ∧ i + 2 < limit ∧ IsHexDecimal (v.getD (i + 1) 0) ∧
          IsHexDecimal (v.getD (i + 1) 0) then
        urlEscapeLoop v fuel cob n (i + 3)
      else
        let u8len := utf8lenTable.getD c 0
        if u8len = 99 then urlEscapeLoop v fuel cob n (i + 1)
        else if c = 32 then
          urlEscapeLoop v fuel ((cob.Write (sl v n i)).Write htmlSpace) (i + 1) (i + 1)
        else
          let u8len := if limit < u8len then limit - 1 else u8len
          if u8len = 0 then urlEscapeLoop v fuel cob (i + 1) (i + 1)
          else
            let cob := cob.Write (sl v n i)
            let stop := i + u8len
            if limit < stop then urlEscapeLoop v fuel cob (i + 1) (i + 1)
            else urlEscapeLoop v fuel (cob.Write (queryEscape (sl v i stop))) stop stop
    else if cob.IsCopied ∧ n < limit then cob.Write (sl v n limit) else cob

def URLEscapeCob (v : List Nat) (resolveReference : Bool) : CopyOnWriteBuffer :=
  let v := if resolveReference then
    ResolveEntityNames (ResolveNumericReferences (UnescapePunctuations v)) else v
  urlEscapeLoop v (v.length + 1) (NewCopyOnWriteBuffer v) 0 0

/-- `URLEscape` (src/util/util.go lines 667-722). -/
def URLEscape (v : List Nat) (resolveReference : Bool) : List Nat :=
  (URLEscapeCob v resolveReference).Bytes

/-! ## DoFullUnicodeCaseFolding (src/util/util.go lines 418-461) -/

/-- Scan loop of `DoFullUnicodeCaseFolding`, parametrized by the case-folding
table (`unicodeCaseFoldings` lives outside src/; the spec describes it as a
full Unicode case-folding table mapping one code point to one or more
replacement code points). -/
def caseFoldingLoop (tbl : Int → Option (List Int)) (v : List Nat) :
    Nat → CopyOnWriteBuffer → Nat → Nat → CopyOnWriteBuffer
  | 0, cob, _, _ => cob
  | fuel + 1, cob, n, i =>
    if i < v.length then
      let c := v.getD i 0
      if c < 0xb5 then
        if 0x41 ≤ c ∧ c ≤ 0x5a then
          caseFoldingLoop tbl v fuel ((cob.Write (sl v n i)).WriteByte (c + 32)) (i + 1) (i + 1)
        else caseFoldingLoop tbl v fuel cob n (i + 1)
      else if ¬ runeStart c then caseFoldingLoop tbl v fuel cob n (i + 1)
      else
        let rl := decodeRune (v.drop i)
        if rl.1 = 0xFFFD then caseFoldingLoop tbl v fuel cob n (i + 1)
        else
          match tbl rl.1 with
          | none => caseFoldingLoop tbl v fuel cob n (i + 1)
          | some folded =>
            let cob := folded.foldl (fun cb f => cb.Write (utf8EncodeRune f)) (cob.Write (sl v n i))
            caseFoldingLoop tbl v fuel cob (i + rl.2) (i + rl.2)
    else if cob.IsCopied then cob.Write (sl v n v.length) else cob

def DoFullUnicodeCaseFoldingCob (tbl : Int → Option (List Int)) (v : List Nat) :
    CopyOnWriteBuffer :=
  caseFoldingLoop tbl v (v.length + 1) (NewCopyOnWriteBuffer v) 0 0

/-- `DoFullUnicodeCaseFolding` (src/util/util.go lines 418-461), parametrized
by the folding table. -/
def DoFullUnicodeCaseFolding (tbl : Int → Option (List Int)) (v : List Nat) : List Nat :=
  (DoFullUnicodeCaseFoldingCob tbl v).Bytes

/-! ## BytesFilter (src/util/util.go lines 1355-1448)

The bucket lists are Go `[][]byte` slices. Slice values are modelled
explicitly as a header (backing-array id and length) into a store of backing
arrays, because `Extend` copies slice *headers* between filters and `append`
may then write the shared backing array in place. All bucket slices start at
offset 0 of their array, so a header needs no start offset and the slice's
capacity is its array's capacity. `append` follows the Go specification:
with spare capacity the backing array is written in place, otherwise a fresh
array is allocated; the capacity growth of the fresh array models the gc
runtime's doubling for these small slices. -/

structure GoSlice where
  aid : Nat
  len : Nat
deriving Repr, DecidableEq

structure GoArray where
  cells : List (List Nat)
  cap : Nat
deriving Repr, DecidableEq

abbrev Store := List GoArray

/-- Write the cell at `idx` of a backing array (in-place `append` writes at
`idx = slice length`, which either overwrites a cell another header already
covers or extends the array's written extent by one). -/
def writeCell (cells : List (List Nat)) (idx : Nat) (x : List Nat) : List (List Nat) :=
  if idx < cells.length then cells.set idx x else cells ++ [x]

/-- Go `append(slot, b)` for a `[][]byte` slot; `none` is a nil slot, which
the source replaces by the empty literal `[][]byte{}` (capacity 0, so the
first append always allocates). -/
def goAppend (st : Store) (s : Option GoSlice) (x : List Nat) : Store × GoSlice :=
  match s with
  | none => (st ++ [⟨[x], 1⟩], ⟨st.length, 1⟩)
  | some s =>
    let a := st.getD s.aid ⟨[], 0⟩
    if s.len < a.cap then
      (st.set s.aid ⟨writeCell a.cells s.len x, a.cap⟩, ⟨s.aid, s.len + 1⟩)
    else
      let newCap := if a.cap = 0 then 1 else 2 * a.cap
      (st ++ [⟨a.cells.take s.len ++ [x], newCap⟩], ⟨st.length, s.len + 1⟩)

/-- `bytesHash` (src/util/util.go lines 1355-1361): djb2 over `uint64`. -/
def bytesHash (b : List Nat) : Nat :=
  b.foldl (fun hash c => ((hash <<< 5) + hash + c) % 2 ^ 64) 5381

/-- The `bytesFilter` struct (src/util/util.go lines 1376-1380). `chars` is
the `[256]uint8` value array (a function, copied by assignment as in Go);
`slots` is the 64-entry `[][][]byte`, each entry a `[][]byte` slice header
(`none` = nil). -/
structure bytesFilter where
  chars : Nat → Nat
  threshold : Nat
  slots : List (Option GoSlice)

/-- `bytesFilter.Add` (src/util/util.go lines 1394-1409). -/
def bytesFilter.Add (st : Store) (s : bytesFilter) (b : List Nat) : Store × bytesFilter :=
  let l := b.length
  let m := if l < s.threshold then l else s.threshold
  let chars := (List.range m).foldl
    (fun ch i => fun c => if c = b.getD i 0 then ch c ||| (1 <<< i) else ch c) s.chars
  let h := bytesHash b % s.slots.length
  let (st, newSlot) := goAppend st (s.slots.getD h none) b
  (st, { s with chars := chars, slots := s.slots.set h (some newSlot) })

/-- `bytesFilter.Contains` (src/util/util.go lines 1426-1448). -/
def bytesFilter.Contains (st : Store) (s : bytesFilter) (b : List Nat) : Bool :=
  let l := b.length
  let m := if l < s.threshold then l else s.threshold
  if (List.range m).all (fun i => s.chars (b.getD i 0) &&& (1 <<< i) ≠ 0) then
    let h := bytesHash b % s.slots.length
    match s.slots.getD h none with
    | none => false
    | some slot =>
      let elems := (st.getD slot.aid ⟨[], 0⟩).cells.take slot.len
      if elems.length = 0 then false
      else elems.any (fun element => element = b)
  else false

/-- `NewBytesFilter` (src/util/util.go lines 1383-1392). -/
def NewBytesFilter (st : Store) (elements : List (List Nat)) : Store × bytesFilter :=
  elements.foldl (fun p element => bytesFilter.Add p.1 p.2 element)
    (st, { chars := fun _ => 0, threshold := 3, slots := List.replicate 64 none })

/-- `bytesFilter.Extend` (src/util/util.go lines 1411-1424). For each bucket
the source builds a copied `newSlot` (`make` + `copy`) but then assigns the
original header `v` to the new filter (`newFilter.slots[k] = v`), leaving the
copy dead; this is mirrored exactly: the copied array is allocated in the
store and never referenced. -/
def bytesFilter.Extend (st : Store) (s : bytesFilter) (bs : List (List Nat)) :
    Store × bytesFilter :=
  let newFilter : bytesFilter :=
    { chars := s.chars, threshold := s.threshold, slots := List.replicate 64 none }
  let stslots := (List.range s.slots.length).foldl
    (fun (p : Store × List (Option GoSlice)) k =>
      let v := s.slots.getD k none
      let vCells := match v with
        | none => []
        | some sj => ((p.1.getD sj.aid ⟨[], 0⟩).cells.take sj.len)
      let vLen := match v with | none => 0 | some sj => sj.len
      (p.1 ++ [⟨vCells, vLen⟩], p.2.set k v))
    (st, newFilter.slots)
  bs.foldl (fun p b => bytesFilter.Add p.1 p.2 b)
    (stslots.1, { newFilter with slots := stslots.2 })

/-! ## Concrete Extend scenario (all four single-byte sequences hash to bucket
37, and `[0x00, 0x20]` does too; after three adds the bucket's backing array
has length 3 and capacity 4). -/

/-- `F1 = NewBytesFilter([0x00], [0x40], [0x80])` with its store. -/
def extendScenario1 : Store × bytesFilter := NewBytesFilter [] [[0], [64], [128]]

/-- `F2 = F1.Extend()`. -/
def extendScenario2 : Store × bytesFilter :=
  bytesFilter.Extend extendScenario1.1 extendScenario1.2 []

/-- `F2.Add([0xC0])`. -/
def extendScenario3 : Store × bytesFilter :=
  bytesFilter.Add extendScenario2.1 extendScenario2.2 [192]

/-- `F1.Add([0x00, 0x20])`, performed after `F2.Add([0xC0])` in the same
store. -/
def extendScenario4 : Store × bytesFilter :=
  bytesFilter.Add extendScenario3.1 extendScenario1.2 [0, 32]

/-! ## Specification-side definitions: the claims' readings of the scan
functions, reified buffer operations, trigger predicates, and the filter
invariant used by the proofs below. -/

/-- The operations of `CopyOnWriteBuffer` as a reified alphabet; `bytes` and
`isCopied` are the two observers, which do not change the state. -/
inductive CowOp where
  | write (value : List Nat)
  | writeString (value : List Nat)
  | writeByte (c : Nat)
  | append (value : List Nat)
  | appendString (value : List Nat)
  | appendByte (c : Nat)
  | bytes
  | isCopied
deriving Repr, DecidableEq

def cowStep (b : CopyOnWriteBuffer) : CowOp → CopyOnWriteBuffer
  | .write v => b.Write v
  | .writeString v => b.WriteString v
  | .writeByte c => b.WriteByte c
  | .append v => b.Append v
  | .appendString v => b.AppendString v
  | .appendByte c => b.AppendByte c
  | .bytes => b
  | .isCopied => b

/-- A buffer created over `init` after running `ops` in order. -/
def cowRun (init : List Nat) (ops : List CowOp) : CopyOnWriteBuffer :=
  ops.foldl cowStep (NewCopyOnWriteBuffer init)

/-- The triggering subsequences of `UnescapePunctuations`: a backslash
directly followed by a punctuation byte (with the source's bound check). -/
def unescapePunctTrigger (v : List Nat) : Bool :=
  (List.range v.length).any (fun i =>
    i < v.length - 1 ∧ v.getD i 0 = 92 ∧ IsPunct (v.getD (i + 1) 0))

/-- The triggering positions of `DoFullUnicodeCaseFolding`: an ASCII
uppercase letter, or a decodable non-ASCII code point present in the folding
table. -/
def caseFoldingTrigger (tbl : Int → Option (List Int)) (v : List Nat) : Bool :=
  (List.range v.length).any (fun i =>
    let c := v.getD i 0
    (c < 0xb5 ∧ 0x41 ≤ c ∧ c ≤ 0x5a) ∨
    (¬ c < 0xb5 ∧ runeStart c ∧ (decodeRune (v.drop i)).1 ≠ 0xFFFD ∧
      (tbl (decodeRune (v.drop i)).1).isSome))

/-- The claim's reading of `UnescapePunctuations`: each backslash directly
followed by a punctuation byte becomes that punctuation byte alone (both
input bytes consumed); every other byte is copied through; a trailing
unmatched backslash is copied as-is. -/
def unescapePunctuationsSpec : List Nat → List Nat
  | [] => []
  | [c] => [c]
  | c :: d :: rest =>
    if c = 92 ∧ IsPunct d then d :: unescapePunctuationsSpec rest
    else c :: unescapePunctuationsSpec (d :: rest)

/-- What `EscapeHTML` emits for one input byte. -/
def escRepr (c : Nat) : List Nat := (htmlEscapeTable c).getD [c]

/-- The claim's per-position reading of `ResolveEntityNames`: each `&` not
followed by `#` with a nonempty alphanumeric run, a terminating `;` and a
known entity name is replaced by that entity's expansion; any other position
is copied through. -/
def entSpec : List Nat → List Nat
  | [] => []
  | c :: rest =>
    if c = 38 ∧ ¬ rest.head? = some 35 then
      if 0 < (rest.takeWhile IsAlphaNumeric).length ∧
          (rest.drop (rest.takeWhile IsAlphaNumeric).length).head? = some 59 then
        match LookUpHTML5EntityByName (rest.takeWhile IsAlphaNumeric) with
        | some characters =>
          characters ++ entSpec ((rest.drop (rest.takeWhile IsAlphaNumeric).length).tail)
        | none => 38 :: entSpec rest
      else 38 :: entSpec rest
    else c :: entSpec rest
termination_by l => l.length
decreasing_by
  · simp only [List.length_tail, List.length_drop, List.length_cons]; omega
  · simp only [List.length_cons]; omega
  · simp only [List.length_cons]; omega
  · simp only [List.length_cons]; omega

/-- The bucket contents denoted by a slot header. -/
def slotEntries (st : Store) (o : Option GoSlice) : List (List Nat) :=
  match o with
  | none => []
  | some s => (st.getD s.aid ⟨[], 0⟩).cells.take s.len

/-- The invariant of a filter built from the empty filter by `Add` calls,
with `added` the sequence of added byte sequences. -/
structure FilterInv (st : Store) (f : bytesFilter) (added : List (List Nat)) : Prop where
  thr : f.threshold = 3
  nslots : f.slots.length = 64
  entries : ∀ k, k < 64 →
    slotEntries st (f.slots.getD k none) = added.filter (fun b => bytesHash b % 64 = k)
  bounds : ∀ k, k < 64 → ∀ s, f.slots.getD k none = some s →
    s.aid < st.length ∧ (st.getD s.aid ⟨[], 0⟩).cells.length = s.len
  inj : ∀ k k', k < 64 → k' < 64 → k ≠ k' → ∀ s s',
    f.slots.getD k none = some s → f.slots.getD k' none = some s' → s.aid ≠ s'.aid
  mask : ∀ b, b ∈ added → ∀ i, i < min b.length 3 →
    f.chars (b.getD i 0) &&& (1 <<< i) ≠ 0

/-! ## Claim theorems -/

/-- C1: the claim says `Extend` gives the clone freshly copied buckets (new
outer and inner containers) so that adds to the original never change
`Contains` results of the clone. In the code, `Extend` assigns the original
bucket header `v` instead of the copied `newSlot`, so clone and original
share bucket backing storage: after `F1 = NewBytesFilter([0x00],[0x40],[0x80])`,
`F2 = F1.Extend()`, `F2.Add([0xC0])`, the later `F1.Add([0x00,0x20])`
overwrites the clone's appended entry in the shared backing array and
`F2.Contains([0xC0])` flips from true to false. -/
theorem extend_shares_bucket_storage_with_original :
    bytesFilter.Contains extendScenario3.1 extendScenario3.2 [192] = true ∧
    bytesFilter.Contains extendScenario4.1 extendScenario4.2 [0, 32] = true ∧
    bytesFilter.Contains extendScenario4.1 extendScenario3.2 [192] = false := by
  refine ⟨by decide, by decide, by decide⟩

/-- C3: `ResolveNumericReferences` maps `"&#9731;"` and `"&#x2603;"` to the
UTF-8 encoding of U+2603, leaves the 8-digit `"&#99999999;"` unchanged, and
maps `"&#0;"` to the UTF-8 encoding of U+FFFD. -/
theorem resolveNumericReferences_boundary_examples :
    ResolveNumericReferences [38, 35, 57, 55, 51, 49, 59] = [226, 152, 131] ∧
    ResolveNumericReferences [38, 35, 120, 50, 54, 48, 51, 59] = [226, 152, 131] ∧
    ResolveNumericReferences [38, 35, 57, 57, 57, 57, 57, 57, 57, 57, 59] =
      [38, 35, 57, 57, 57, 57, 57, 57, 57, 57, 59] ∧
    ResolveNumericReferences [38, 35, 48, 59] = [239, 191, 189] := by
  refine ⟨by decide, by decide, by decide, by decide⟩

/-- C10: the decimal digit run is handed to `strconv.ParseUint` with base 0
(C-style base detection), so `"&#010;"` is read as octal and resolves to the
one-byte UTF-8 encoding of code point 8, while `"&#08;"` fails to parse
(digit 8 in octal), the discarded error leaves the value 0, and the
reference resolves to U+FFFD. -/
theorem resolveNumericReferences_base0_octal :
    ResolveNumericReferences [38, 35, 48, 49, 48, 59] = [8] ∧
    ResolveNumericReferences [38, 35, 48, 56, 59] = [239, 191, 189] := by
  refine ⟨by decide, by decide⟩

/-- C2 counterexample: the claim says a byte whose declared UTF-8 length
overruns the remaining input is passed through unescaped into the output.
On `[0x20, 0xC3]` the space forces a copy and the trailing two-byte lead
`0xC3` is then dropped: the output is exactly `"%20"`, not `"%20\xC3"`. -/
theorem urlEscape_overrun_byte_not_passed_through :
    URLEscape [32, 195] false = [37, 50, 48] := by decide

/-- C9: whenever a `%` has at least two following bytes and the byte right
after it is a hexadecimal digit, the `%` and the two bytes after it pass
through untouched; the second following byte is never examined (the source
tests `v[i+1]` twice), so any `b2` — e.g. `G` in `"%2G"` — is accepted. The
first conjunct shows the three bytes are emitted verbatim even after an
earlier substitution materialized the buffer; the second shows the untouched
fast path. -/
theorem urlEscape_percent_second_byte_not_examined (b1 b2 : Fin 256)
    (h : IsHexDecimal b1.val = true) :
    URLEscape [32, 37, b1.val, b2.val] false = [37, 50, 48, 37, b1.val, b2.val] ∧
    URLEscape [37, b1.val, b2.val] false = [37, b1.val, b2.val] := by
  constructor
  · set_option maxRecDepth 4000 in
    simp +decide [URLEscape, URLEscapeCob, urlEscapeLoop, NewCopyOnWriteBuffer,
      CopyOnWriteBuffer.Bytes, CopyOnWriteBuffer.IsCopied, CopyOnWriteBuffer.Write, sl, h,
      htmlSpace]
  · set_option maxRecDepth 4000 in
    simp +decide [URLEscape, URLEscapeCob, urlEscapeLoop, NewCopyOnWriteBuffer,
      CopyOnWriteBuffer.Bytes, CopyOnWriteBuffer.IsCopied, CopyOnWriteBuffer.Write, sl, h]

theorem urlEscape_percent_second_byte_not_examined_witness :
    URLEscape [32, 37, 50, 71] false = [37, 50, 48, 37, 50, 71] ∧
    URLEscape [37, 50, 71] false = [37, 50, 71] :=
  urlEscape_percent_second_byte_not_examined (50 : Fin 256) (71 : Fin 256) (by decide)

/-! ## CopyOnWriteBuffer operation sequences (for the lifetime invariants) -/

theorem cowStep_copied_mono (b : CopyOnWriteBuffer) (op : CowOp)
    (h : b.copied = true) : (cowStep b op).copied = true := by
  cases op <;>
    simp [cowStep, CopyOnWriteBuffer.Write, CopyOnWriteBuffer.WriteString,
      CopyOnWriteBuffer.WriteByte, CopyOnWriteBuffer.Append,
      CopyOnWriteBuffer.AppendString, CopyOnWriteBuffer.AppendByte, h]

theorem cowFoldl_copied_mono (more : List CowOp) :
    ∀ b : CopyOnWriteBuffer, b.copied = true → (more.foldl cowStep b).copied = true := by
  induction more with
  | nil => intro b h; simpa using h
  | cons op rest ih =>
    intro b h
    simpa using ih (cowStep b op) (cowStep_copied_mono b op h)

theorem cowFoldl_uncopied_id (v : List Nat) (ops : List CowOp) :
    ∀ b : CopyOnWriteBuffer, (b.copied = false → b.buffer = v) →
      (ops.foldl cowStep b).copied = false → (ops.foldl cowStep b).buffer = v := by
  induction ops with
  | nil => intro b hb h; exact hb h
  | cons op rest ih =>
    intro b hb h
    refine ih (cowStep b op) ?_ h
    intro hstep
    cases hcop : b.copied with
    | true => simp [cowStep_copied_mono b op hcop] at hstep
    | false =>
      cases op <;> simp_all [cowStep, CopyOnWriteBuffer.Write,
        CopyOnWriteBuffer.WriteString, CopyOnWriteBuffer.WriteByte,
        CopyOnWriteBuffer.Append, CopyOnWriteBuffer.AppendString,
        CopyOnWriteBuffer.AppendByte]

/-- C8: over every operation sequence on a buffer created over `v`, once
`IsCopied()` is true it stays true after every further operation, and while
it is false, `Bytes()` is byte-identical to the original input view `v`. -/
theorem copyOnWriteBuffer_invariants (v : List Nat) (ops more : List CowOp) :
    ((cowRun v ops).IsCopied = true → (cowRun v (ops ++ more)).IsCopied = true) ∧
    ((cowRun v ops).IsCopied = false → (cowRun v ops).Bytes = v) := by
  constructor
  · intro h
    rw [cowRun, List.foldl_append]
    exact cowFoldl_copied_mono more _ h
  · intro h
    exact cowFoldl_uncopied_id v ops (NewCopyOnWriteBuffer v)
      (fun _ => rfl) h

theorem copyOnWriteBuffer_invariants_witness :
    (cowRun [1] ([CowOp.write [2]] ++ [CowOp.appendByte 3])).IsCopied = true ∧
    (cowRun [1] [CowOp.bytes, CowOp.isCopied]).Bytes = [1] :=
  ⟨(copyOnWriteBuffer_invariants [1] [CowOp.write [2]] [CowOp.appendByte 3]).1 (by decide),
   (copyOnWriteBuffer_invariants [1] [CowOp.bytes, CowOp.isCopied] []).2 (by decide)⟩

/-! ## No-op fast path (C5) -/

theorem escapeHTMLLoop_noop (v : List Nat)
    (h : v.all (fun c => (htmlEscapeTable c).isNone) = true) :
    ∀ fuel i, escapeHTMLLoop v fuel ⟨v, false⟩ 0 i = ⟨v, false⟩ := by
  intro fuel
  induction fuel with
  | zero => intro i; rfl
  | succ fuel ih =>
    intro i
    by_cases hi : i < v.length
    · have hnone : htmlEscapeTable (v.getD i 0) = none := by
        have hm := List.all_eq_true.mp h (v.getD i 0)
          (by rw [List.getD_eq_getElem v 0 hi]; exact List.getElem_mem hi)
        simpa [Option.isNone_iff_eq_none] using hm
      simp only [escapeHTMLLoop, if_pos hi, hnone]
      exact ih (i + 1)
    · simp [escapeHTMLLoop, hi, CopyOnWriteBuffer.IsCopied]

theorem unescapePunctuationsLoop_noop (v : List Nat)
    (h : unescapePunctTrigger v = false) :
    ∀ fuel i, unescapePunctuationsLoop v fuel ⟨v, false⟩ 0 i = ⟨v, false⟩ := by
  intro fuel
  induction fuel with
  | zero => intro i; rfl
  | succ fuel ih =>
    intro i
    by_cases hi : i < v.length
    · have hcond : ¬ (i < v.length - 1 ∧ v.getD i 0 = 92 ∧ IsPunct (v.getD (i + 1) 0)) := by
        intro hc
        have htrue : unescapePunctTrigger v = true := by
          unfold unescapePunctTrigger
          refine List.any_eq_true.mpr ⟨i, List.mem_range.mpr hi, ?_⟩
          simp_all
        rw [htrue] at h; cases h
      simp only [unescapePunctuationsLoop, if_pos hi]
      rw [if_neg hcond]
      exact ih (i + 1)
    · simp [unescapePunctuationsLoop, hi, CopyOnWriteBuffer.IsCopied]

theorem resolveNumericReferencesLoop_noop (v : List Nat)
    (h : (38 : Nat) ∉ v) :
    ∀ fuel i, resolveNumericReferencesLoop v fuel ⟨v, false⟩ 0 i = ⟨v, false⟩ := by
  intro fuel
  induction fuel with
  | zero => intro i; rfl
  | succ fuel ih =>
    intro i
    by_cases hi : i < v.length
    · have hne : ¬ v.getD i 0 = 38 := by
        intro hc
        refine h ?_
        rw [← hc, List.getD_eq_getElem v 0 hi]; exact List.getElem_mem hi
      simp only [resolveNumericReferencesLoop, if_pos hi, if_neg hne]
      exact ih (i + 1)
    · simp [resolveNumericReferencesLoop, hi, CopyOnWriteBuffer.IsCopied]

theorem resolveEntityNamesLoop_noop (v : List Nat)
    (h : (38 : Nat) ∉ v) :
    ∀ fuel i, resolveEntityNamesLoop v fuel ⟨v, false⟩ 0 i = ⟨v, false⟩ := by
  intro fuel
  induction fuel with
  | zero => intro i; rfl
  | succ fuel ih =>
    intro i
    by_cases hi : i < v.length
    · have hne : ¬ v.getD i 0 = 38 := by
        intro hc
        refine h ?_
        rw [← hc, List.getD_eq_getElem v 0 hi]; exact List.getElem_mem hi
      simp only [resolveEntityNamesLoop, if_pos hi, if_neg hne]
      exact ih (i + 1)
    · simp [resolveEntityNamesLoop, hi, CopyOnWriteBuffer.IsCopied]

theorem urlEscapeLoop_noop (v : List Nat)
    (h : v.all (fun c => urlEscapeTable.getD c 0 = 1) = true) :
    ∀ fuel i, urlEscapeLoop v fuel ⟨v, false⟩ 0 i = ⟨v, false⟩ := by
  intro fuel
  induction fuel with
  | zero => intro i; rfl
  | succ fuel ih =>
    intro i
    by_cases hi : i < v.length
    · have hsafe : urlEscapeTable.getD (v.getD i 0) 0 = 1 := by
        have hm := List.all_eq_true.mp h (v.getD i 0)
          (by rw [List.getD_eq_getElem v 0 hi]; exact List.getElem_mem hi)
        simpa using hm
      simp only [urlEscapeLoop, if_pos hi, if_pos hsafe]
      exact ih (i + 1)
    · simp [urlEscapeLoop, hi, CopyOnWriteBuffer.IsCopied]

theorem caseFoldingLoop_noop (tbl : Int → Option (List Int)) (v : List Nat)
    (h : caseFoldingTrigger tbl v = false) :
    ∀ fuel i, caseFoldingLoop tbl v fuel ⟨v, false⟩ 0 i = ⟨v, false⟩ := by
  intro fuel
  induction fuel with
  | zero => intro i; rfl
  | succ fuel ih =>
    intro i
    by_cases hi : i < v.length
    · have hnotrig : ¬ ((v.getD i 0 < 0xb5 ∧ 0x41 ≤ v.getD i 0 ∧ v.getD i 0 ≤ 0x5a) ∨
          (¬ v.getD i 0 < 0xb5 ∧ runeStart (v.getD i 0) ∧
            (decodeRune (v.drop i)).1 ≠ 0xFFFD ∧
            (tbl (decodeRune (v.drop i)).1).isSome)) := by
        intro hc
        have htrue : caseFoldingTrigger tbl v = true := by
          unfold caseFoldingTrigger
          refine List.any_eq_true.mpr ⟨i, List.mem_range.mpr hi, ?_⟩
          rcases hc with ⟨h1, h2, h3⟩ | ⟨h1, h2, h3, h4⟩
          · simp_all
          · simp_all
        rw [htrue] at h; cases h
      by_cases hc : v.getD i 0 < 0xb5
      · have haz : ¬ (0x41 ≤ v.getD i 0 ∧ v.getD i 0 ≤ 0x5a) := by
          intro haz
          exact hnotrig (Or.inl ⟨hc, haz.1, haz.2⟩)
        simp only [caseFoldingLoop, if_pos hi, if_pos hc]
        rw [if_neg haz]
        exact ih (i + 1)
      · by_cases hrs : runeStart (v.getD i 0)
        · by_cases herr : (decodeRune (v.drop i)).1 = 0xFFFD
          · simp only [caseFoldingLoop, if_pos hi, if_neg hc]
            rw [if_neg (by simpa using hrs), if_pos herr]
            exact ih (i + 1)
          · have hnone : tbl (decodeRune (v.drop i)).1 = none := by
              rcases Option.eq_none_or_eq_some (tbl (decodeRune (v.drop i)).1) with hn | ⟨x, hs⟩
              · exact hn
              · exact absurd (Or.inr ⟨hc, hrs, herr, by simp [hs]⟩) hnotrig
            simp only [caseFoldingLoop, if_pos hi, if_neg hc]
            rw [if_neg (by simpa using hrs), if_neg herr, hnone]
            exact ih (i + 1)
        · simp only [caseFoldingLoop, if_pos hi, if_neg hc]
          rw [if_pos (by simpa using hrs)]
          exact ih (i + 1)
    · simp [caseFoldingLoop, hi, CopyOnWriteBuffer.IsCopied]

/-- C5: for each transformation function, an input containing none of its
triggering bytes or subsequences comes back as the original input view with
no copy materialized — the returned copy-on-write buffer is exactly
`⟨v, false⟩` (so `Bytes` is the input itself and `IsCopied` is false). For
`URLEscape` the triggering bytes are those outside the URL-safe set and
`resolveReference` is false (its scan only); the case-folding table is
arbitrary. -/
theorem transformations_noop_fast_path (v : List Nat) (tbl : Int → Option (List Int)) :
    (v.all (fun c => (htmlEscapeTable c).isNone) = true →
      EscapeHTMLCob v = ⟨v, false⟩) ∧
    (unescapePunctTrigger v = false → UnescapePunctuationsCob v = ⟨v, false⟩) ∧
    ((38 : Nat) ∉ v → ResolveNumericReferencesCob v = ⟨v, false⟩) ∧
    ((38 : Nat) ∉ v → ResolveEntityNamesCob v = ⟨v, false⟩) ∧
    (v.all (fun c => urlEscapeTable.getD c 0 = 1) = true →
      URLEscapeCob v false = ⟨v, false⟩) ∧
    (caseFoldingTrigger tbl v = false → DoFullUnicodeCaseFoldingCob tbl v = ⟨v, false⟩) := by
  refine ⟨fun h => ?_, fun h => ?_, fun h => ?_, fun h => ?_, fun h => ?_, fun h => ?_⟩
  · exact escapeHTMLLoop_noop v h (v.length + 1) 0
  · exact unescapePunctuationsLoop_noop v h (v.length + 1) 0
  · exact resolveNumericReferencesLoop_noop v h (v.length + 1) 0
  · exact resolveEntityNamesLoop_noop v h (v.length + 1) 0
  · exact urlEscapeLoop_noop v h (v.length + 1) 0
  · exact caseFoldingLoop_noop tbl v h (v.length + 1) 0

theorem transformations_noop_fast_path_witness :
    EscapeHTMLCob [97, 98] = ⟨[97, 98], false⟩ ∧
    UnescapePunctuationsCob [97, 92] = ⟨[97, 92], false⟩ ∧
    ResolveNumericReferencesCob [35, 57, 59] = ⟨[35, 57, 59], false⟩ ∧
    ResolveEntityNamesCob [97, 109, 112, 59] = ⟨[97, 109, 112, 59], false⟩ ∧
    URLEscapeCob [97, 47, 98] false = ⟨[97, 47, 98], false⟩ ∧
    DoFullUnicodeCaseFoldingCob (fun _ => none) [97, 194, 181] = ⟨[97, 194, 181], false⟩ :=
  ⟨(transformations_noop_fast_path [97, 98] (fun _ => none)).1 (by decide),
   (transformations_noop_fast_path [97, 92] (fun _ => none)).2.1 (by decide),
   (transformations_noop_fast_path [35, 57, 59] (fun _ => none)).2.2.1 (by decide),
   (transformations_noop_fast_path [97, 109, 112, 59] (fun _ => none)).2.2.2.1 (by decide),
   (transformations_noop_fast_path [97, 47, 98] (fun _ => none)).2.2.2.2.1 (by decide),
   (transformations_noop_fast_path [97, 194, 181] (fun _ => none)).2.2.2.2.2 (by decide)⟩

/-! ## Slice lemmas used by the scan-loop refinement proofs -/

theorem sl_self (v : List Nat) (a : Nat) : sl v a a = [] :=
  List.drop_eq_nil_of_le (by simp [List.length_take])

theorem sl_zero (v : List Nat) (b : Nat) : sl v 0 b = v.take b := by
  simp [sl]

theorem sl_len (v : List Nat) (n : Nat) : sl v n v.length = v.drop n := by
  simp [sl]

theorem drop_cons_getD (v : List Nat) (i : Nat) (h : i < v.length) :
    v.drop i = v.getD i 0 :: v.drop (i + 1) := by
  rw [List.getD_eq_getElem v 0 h]
  exact List.drop_eq_getElem_cons h

theorem sl_snoc (v : List Nat) (n i : Nat) (hn : n ≤ i) (hi : i < v.length) :
    sl v n (i + 1) = sl v n i ++ [v.getD i 0] := by
  rw [List.getD_eq_getElem v 0 hi]
  unfold sl
  rw [List.take_succ, List.getElem?_eq_getElem hi]
  simp only [Option.toList_some]
  rw [List.drop_append_of_le_length (by simp [List.length_take]; omega)]

/-! ## C7: UnescapePunctuations refinement -/

/-- One pass step of the spec: a position the scan copies through. -/
theorem unescapePunctuationsSpec_pass (v : List Nat) (i : Nat) (hi : i < v.length)
    (hcond : ¬ (i < v.length - 1 ∧ v.getD i 0 = 92 ∧ IsPunct (v.getD (i + 1) 0))) :
    unescapePunctuationsSpec (v.drop i) = v.getD i 0 :: unescapePunctuationsSpec (v.drop (i + 1)) := by
  rw [drop_cons_getD v i hi]
  by_cases hlast : i + 1 < v.length
  · rw [drop_cons_getD v (i + 1) hlast]
    rw [unescapePunctuationsSpec]
    have hneg : ¬ (v.getD i 0 = 92 ∧ IsPunct (v.getD (i + 1) 0)) := by
      intro hc
      push_neg at hcond
      exact hcond (by omega) hc.1 hc.2
    rw [if_neg hneg]
  · have : v.drop (i + 1) = [] := List.drop_eq_nil_of_le (by omega)
    rw [this]
    rfl

/-- One substitution step of the spec. -/
theorem unescapePunctuationsSpec_subst (v : List Nat) (i : Nat)
    (h1 : i < v.length - 1) (h2 : v.getD i 0 = 92) (h3 : IsPunct (v.getD (i + 1) 0)) :
    unescapePunctuationsSpec (v.drop i) =
      v.getD (i + 1) 0 :: unescapePunctuationsSpec (v.drop (i + 2)) := by
  have hi : i < v.length := by omega
  have hi1 : i + 1 < v.length := by omega
  rw [drop_cons_getD v i hi, drop_cons_getD v (i + 1) hi1]
  rw [unescapePunctuationsSpec]
  rw [if_pos ⟨h2, h3⟩]

/-- Master refinement lemma for the `UnescapePunctuations` scan loop: with a
pending unflushed span `[n, i)` the spec passes through, the loop's final
buffer is what has been flushed so far followed by the spec of the rest. -/
theorem unescapePunctuationsLoop_spec (v : List Nat) :
    ∀ fuel i n cob, v.length - i < fuel → n ≤ i → i ≤ v.length →
    unescapePunctuationsSpec (v.drop n) = sl v n i ++ unescapePunctuationsSpec (v.drop i) →
    (cob.copied = false → cob.buffer = v ∧ n = 0) →
    (unescapePunctuationsLoop v fuel cob n i).buffer =
      (if cob.copied then cob.buffer else []) ++ unescapePunctuationsSpec (v.drop n) := by
  intro fuel
  induction fuel with
  | zero => intro i n cob hfuel; omega
  | succ fuel ih =>
    intro i n cob hfuel hn hi hH huncop
    by_cases hlt : i < v.length
    · by_cases hcond : i < v.length - 1 ∧ v.getD i 0 = 92 ∧ IsPunct (v.getD (i + 1) 0)
      · -- substitution step
        simp only [unescapePunctuationsLoop, if_pos hlt, if_pos hcond]
        have hi2 : i + 2 ≤ v.length := by omega
        have hbuf : ((cob.Write (sl v n i)).WriteByte (v.getD (i + 1) 0)).buffer =
            (if cob.copied then cob.buffer else []) ++ sl v n i ++ [v.getD (i + 1) 0] := by
          cases hcop : cob.copied <;>
            simp [CopyOnWriteBuffer.Write, CopyOnWriteBuffer.WriteByte, hcop]
        have hcopied : ((cob.Write (sl v n i)).WriteByte (v.getD (i + 1) 0)).copied = true := by
          cases hcop : cob.copied <;>
            simp [CopyOnWriteBuffer.Write, CopyOnWriteBuffer.WriteByte, hcop]
        have ihres := ih (i + 2) (i + 2)
          ((cob.Write (sl v n i)).WriteByte (v.getD (i + 1) 0))
          (by omega) (le_refl _) hi2 (by rw [sl_self]; rfl)
          (by intro hc; rw [hcopied] at hc; cases hc)
        rw [ihres, hcopied, hbuf, hH,
          unescapePunctuationsSpec_subst v i hcond.1 hcond.2.1 hcond.2.2]
        simp
      · -- pass step
        simp only [unescapePunctuationsLoop, if_pos hlt, if_neg hcond]
        have hstep := unescapePunctuationsSpec_pass v i hlt hcond
        have hH' : unescapePunctuationsSpec (v.drop n) =
            sl v n (i + 1) ++ unescapePunctuationsSpec (v.drop (i + 1)) := by
          rw [hH, hstep, sl_snoc v n i hn hlt]
          simp
        exact ih (i + 1) n cob (by omega) (by omega) (by omega) hH' huncop
    · -- end of scan
      have hiv : i = v.length := by omega
      subst hiv
      simp only [unescapePunctuationsLoop, if_neg hlt]
      rw [List.drop_length] at hH
      cases hcop : cob.copied with
      | true =>
        have hw : (cob.Write (sl v n v.length)).buffer = cob.buffer ++ sl v n v.length := by
          simp [CopyOnWriteBuffer.Write, hcop]
        simp [CopyOnWriteBuffer.IsCopied, hcop, hw, hH, unescapePunctuationsSpec]
      | false =>
        obtain ⟨hbuf, hn0⟩ := huncop hcop
        subst hn0
        simp only [CopyOnWriteBuffer.IsCopied, hcop]
        rw [hH]
        simp [unescapePunctuationsSpec, sl_zero, hbuf]

/-- C7: `UnescapePunctuations` replaces each backslash directly followed by a
punctuation byte with the punctuation byte alone, consuming both bytes,
copies every other byte through unchanged, and copies a trailing unmatched
backslash as-is — it equals the structural specification recursion. -/
theorem unescapePunctuations_eq_spec (source : List Nat) :
    UnescapePunctuations source = unescapePunctuationsSpec source := by
  have h := unescapePunctuationsLoop_spec source (source.length + 1) 0 0
    (NewCopyOnWriteBuffer source) (by omega) (le_refl _) (Nat.zero_le _)
    (by rw [sl_self]; rfl) (fun _ => ⟨rfl, rfl⟩)
  simpa [UnescapePunctuations, UnescapePunctuationsCob, CopyOnWriteBuffer.Bytes,
    NewCopyOnWriteBuffer] using h

/-! ## C6: round-trip of EscapeHTML and ResolveEntityNames -/

/-- Master refinement lemma for the `EscapeHTML` scan loop. -/
theorem escapeHTMLLoop_spec (v : List Nat) :
    ∀ fuel i n cob, v.length - i < fuel → n ≤ i → i ≤ v.length →
    (v.drop n).flatMap escRepr = sl v n i ++ (v.drop i).flatMap escRepr →
    (cob.copied = false → cob.buffer = v ∧ n = 0) →
    (escapeHTMLLoop v fuel cob n i).buffer =
      (if cob.copied then cob.buffer else []) ++ (v.drop n).flatMap escRepr := by
  intro fuel
  induction fuel with
  | zero => intro i n cob hfuel; omega
  | succ fuel ih =>
    intro i n cob hfuel hn hi hH huncop
    by_cases hlt : i < v.length
    · have hdropi : v.drop i = v.getD i 0 :: v.drop (i + 1) := drop_cons_getD v i hlt
      cases heq : htmlEscapeTable (v.getD i 0) with
      | some escaped =>
        simp only [escapeHTMLLoop, if_pos hlt, heq]
        have hbuf : ((cob.Write (sl v n i)).Write escaped).buffer =
            (if cob.copied then cob.buffer else []) ++ sl v n i ++ escaped := by
          cases hcop : cob.copied <;> simp [CopyOnWriteBuffer.Write, hcop]
        have hcopied : ((cob.Write (sl v n i)).Write escaped).copied = true := by
          cases hcop : cob.copied <;> simp [CopyOnWriteBuffer.Write, hcop]
        have ihres := ih (i + 1) (i + 1) ((cob.Write (sl v n i)).Write escaped)
          (by omega) (le_refl _) (by omega) (by rw [sl_self]; rfl)
          (by intro hc; rw [hcopied] at hc; cases hc)
        rw [ihres, hcopied, hbuf, hH, hdropi, List.flatMap_cons]
        have hesc : escRepr (v.getD i 0) = escaped := by rw [escRepr, heq]; rfl
        rw [hesc]
        simp
      | none =>
        simp only [escapeHTMLLoop, if_pos hlt, heq]
        have hH' : (v.drop n).flatMap escRepr =
            sl v n (i + 1) ++ (v.drop (i + 1)).flatMap escRepr := by
          rw [hH, hdropi, sl_snoc v n i hn hlt, List.flatMap_cons]
          have hesc : escRepr (v.getD i 0) = [v.getD i 0] := by rw [escRepr, heq]; rfl
          rw [hesc]
          simp
        exact ih (i + 1) n cob (by omega) (by omega) (by omega) hH' huncop
    · have hiv : i = v.length := by omega
      subst hiv
      simp only [escapeHTMLLoop, if_neg hlt]
      rw [List.drop_length] at hH
      cases hcop : cob.copied with
      | true =>
        have hw : (cob.Write (sl v n v.length)).buffer = cob.buffer ++ sl v n v.length := by
          simp [CopyOnWriteBuffer.Write, hcop]
        simp [CopyOnWriteBuffer.IsCopied, hcop, hw, hH]
      | false =>
        obtain ⟨hbuf, hn0⟩ := huncop hcop
        subst hn0
        simp only [CopyOnWriteBuffer.IsCopied, hcop]
        rw [hH]
        simp [sl_zero, hbuf]

/-- `EscapeHTML` maps each byte to its named reference when the table has
one, and passes it through otherwise. -/
theorem escapeHTML_eq_flatMap (v : List Nat) : EscapeHTML v = v.flatMap escRepr := by
  have h := escapeHTMLLoop_spec v (v.length + 1) 0 0 (NewCopyOnWriteBuffer v)
    (by omega) (le_refl _) (Nat.zero_le _) (by rw [sl_self]; rfl) (fun _ => ⟨rfl, rfl⟩)
  simpa [EscapeHTML, EscapeHTMLCob, CopyOnWriteBuffer.Bytes, NewCopyOnWriteBuffer] using h

theorem take_takeWhile_length (p : Nat → Bool) (l : List Nat) :
    l.take (l.takeWhile p).length = l.takeWhile p := by
  induction l with
  | nil => rfl
  | cons c rest ih =>
    by_cases hp : p c
    · simp [List.takeWhile_cons, hp, ih]
    · simp [List.takeWhile_cons, hp]

/-- `ReadWhileAux` scans exactly the maximal `pred`-satisfying run. -/
theorem ReadWhileAux_spec (v : List Nat) (pred : Nat → Bool) :
    ∀ fuel j ok, v.length - j < fuel → j ≤ v.length →
    ReadWhileAux v v.length pred fuel j ok =
      (j + ((v.drop j).takeWhile pred).length,
       ok || decide (0 < ((v.drop j).takeWhile pred).length)) := by
  intro fuel
  induction fuel with
  | zero => intro j ok hfuel; omega
  | succ fuel ih =>
    intro j ok hfuel hj
    by_cases hlt : j < v.length
    · have hdrop := drop_cons_getD v j hlt
      by_cases hp : pred (v.getD j 0)
      · have hrec := ih (j + 1) true (by omega) (by omega)
        simp only [ReadWhileAux, if_pos hlt, hp, if_pos rfl, hrec, hdrop,
          List.takeWhile_cons, if_true, List.length_cons, Prod.mk.injEq]
        exact ⟨by omega, by simp⟩
      · have hp' : pred (v.getD j 0) = false := by simpa using hp
        simp only [ReadWhileAux, if_pos hlt, hp', hdrop, List.takeWhile_cons,
          Bool.false_eq_true, if_false, List.length_nil, Prod.mk.injEq]
        exact ⟨by omega, by simp⟩
    · have hj' : j = v.length := by omega
      subst hj'
      simp [ReadWhileAux, List.drop_length]

/-- `ReadWhile` in terms of `takeWhile` on the corresponding suffix. -/
theorem ReadWhile_spec (v : List Nat) (start : Nat) (pred : Nat → Bool)
    (h : start ≤ v.length) :
    ReadWhile v (start, v.length) pred =
      (start + ((v.drop start).takeWhile pred).length,
       decide (0 < ((v.drop start).takeWhile pred).length)) := by
  unfold ReadWhile
  rw [ReadWhileAux_spec v pred (v.length + 1 - start) start false (by omega) h]
  simp

theorem entSpec_pass (v : List Nat) (i : Nat) (hi : i < v.length)
    (hne : v.getD i 0 ≠ 38) :
    entSpec (v.drop i) = v.getD i 0 :: entSpec (v.drop (i + 1)) := by
  rw [drop_cons_getD v i hi, entSpec]
  rw [if_neg (by intro hc; exact hne hc.1)]

theorem head?_drop_iff (v : List Nat) (j c : Nat) :
    (v.drop j).head? = some c ↔ (j < v.length ∧ v.getD j 0 = c) := by
  rw [List.head?_drop]
  constructor
  · intro h
    have hj : j < v.length := by
      by_contra hj
      rw [List.getElem?_eq_none (by omega)] at h
      cases h
    refine ⟨hj, ?_⟩
    rw [List.getElem?_eq_getElem hj] at h
    rw [List.getD_eq_getElem v 0 hj]
    exact Option.some.inj h
  · intro ⟨hj, hc⟩
    rw [List.getElem?_eq_getElem hj, ← List.getD_eq_getElem v 0 hj, hc]

theorem entSpec_hash (v : List Nat) (i : Nat) (hi : i < v.length)
    (heq : v.getD i 0 = 38) (h35 : i + 1 < v.length ∧ v.getD (i + 1) 0 = 35) :
    entSpec (v.drop i) = 38 :: entSpec (v.drop (i + 1)) := by
  rw [drop_cons_getD v i hi, heq, entSpec]
  rw [if_neg (by
    intro hc
    exact hc.2 ((head?_drop_iff v (i + 1) 35).mpr h35))]

theorem entSpec_ampfail (v : List Nat) (i : Nat) (hi : i < v.length)
    (heq : v.getD i 0 = 38)
    (hno35 : ¬ (v.drop (i + 1)).head? = some 35)
    (hfail : ¬ (0 < ((v.drop (i + 1)).takeWhile IsAlphaNumeric).length ∧
        ((v.drop (i + 1)).drop ((v.drop (i + 1)).takeWhile IsAlphaNumeric).length).head? =
          some 59) ∨
      LookUpHTML5EntityByName ((v.drop (i + 1)).takeWhile IsAlphaNumeric) = none) :
    entSpec (v.drop i) = 38 :: entSpec (v.drop (i + 1)) := by
  rw [drop_cons_getD v i hi, heq, entSpec]
  rw [if_pos ⟨rfl, hno35⟩]
  rcases hfail with hf | hf
  · rw [if_neg hf]
  · by_cases hcond : 0 < ((v.drop (i + 1)).takeWhile IsAlphaNumeric).length ∧
        ((v.drop (i + 1)).drop ((v.drop (i + 1)).takeWhile IsAlphaNumeric).length).head? =
          some 59
    · rw [if_pos hcond]
      simp only [hf]
    · rw [if_neg hcond]

theorem entSpec_subst (v : List Nat) (i : Nat) (hi : i < v.length)
    (heq : v.getD i 0 = 38)
    (hno35 : ¬ (v.drop (i + 1)).head? = some 35)
    (hk : 0 < ((v.drop (i + 1)).takeWhile IsAlphaNumeric).length)
    (h59 : ((v.drop (i + 1)).drop ((v.drop (i + 1)).takeWhile IsAlphaNumeric).length).head? =
      some 59)
    (characters : List Nat)
    (hlook : LookUpHTML5EntityByName ((v.drop (i + 1)).takeWhile IsAlphaNumeric) =
      some characters) :
    entSpec (v.drop i) =
      characters ++
        entSpec (v.drop (i + 1 + ((v.drop (i + 1)).takeWhile IsAlphaNumeric).length + 1)) := by
  rw [drop_cons_getD v i hi, heq, entSpec]
  rw [if_pos ⟨rfl, hno35⟩, if_pos ⟨hk, h59⟩]
  simp only [hlook]
  rw [List.drop_drop, List.tail_drop]

theorem sl_takeWhile (v : List Nat) (start : Nat) (p : Nat → Bool) :
    sl v start (start + ((v.drop start).takeWhile p).length) = (v.drop start).takeWhile p := by
  rw [sl, List.drop_take, Nat.add_sub_cancel_left, take_takeWhile_length]

/-- `entSpec` substitution step, with the side conditions in the index form
the scan loop produces. -/
theorem entSpec_amp_success (v : List Nat) (i : Nat) (hlt : i < v.length)
    (h38 : v.getD i 0 = 38)
    (h35 : ¬ (i + 1 < v.length ∧ v.getD (i + 1) 0 = 35))
    (hk : 0 < ((v.drop (i + 1)).takeWhile IsAlphaNumeric).length)
    (hjlen : i + 1 + ((v.drop (i + 1)).takeWhile IsAlphaNumeric).length < v.length)
    (hsemi : v.getD (i + 1 + ((v.drop (i + 1)).takeWhile IsAlphaNumeric).length) 0 = 59)
    (characters : List Nat)
    (hlook : LookUpHTML5EntityByName ((v.drop (i + 1)).takeWhile IsAlphaNumeric) =
      some characters) :
    entSpec (v.drop i) = characters ++
      entSpec (v.drop (i + 1 + ((v.drop (i + 1)).takeWhile IsAlphaNumeric).length + 1)) := by
  have hno35 : ¬ (v.drop (i + 1)).head? = some 35 :=
    fun hc => h35 ((head?_drop_iff v (i + 1) 35).mp hc)
  have h59 : ((v.drop (i + 1)).drop ((v.drop (i + 1)).takeWhile IsAlphaNumeric).length).head? =
      some 59 := by
    rw [List.drop_drop]
    exact (head?_drop_iff v _ 59).mpr ⟨hjlen, hsemi⟩
  exact entSpec_subst v i hlt h38 hno35 hk h59 characters hlook

/-- `entSpec` failure step for an `&` whose reference grammar does not match,
with the side conditions in index form. -/
theorem entSpec_amp_fail (v : List Nat) (i : Nat) (hlt : i < v.length)
    (h38 : v.getD i 0 = 38)
    (h35 : ¬ (i + 1 < v.length ∧ v.getD (i + 1) 0 = 35))
    (hfail : ¬ (0 < ((v.drop (i + 1)).takeWhile IsAlphaNumeric).length ∧
        i + 1 + ((v.drop (i + 1)).takeWhile IsAlphaNumeric).length < v.length ∧
        v.getD (i + 1 + ((v.drop (i + 1)).takeWhile IsAlphaNumeric).length) 0 = 59) ∨
      LookUpHTML5EntityByName ((v.drop (i + 1)).takeWhile IsAlphaNumeric) = none) :
    entSpec (v.drop i) = 38 :: entSpec (v.drop (i + 1)) := by
  have hno35 : ¬ (v.drop (i + 1)).head? = some 35 :=
    fun hc => h35 ((head?_drop_iff v (i + 1) 35).mp hc)
  apply entSpec_ampfail v i hlt h38 hno35
  rcases hfail with hf | hf
  · left
    intro hc
    rw [List.drop_drop] at hc
    have hsemi := (head?_drop_iff v _ 59).mp hc.2
    exact hf ⟨hc.1, hsemi.1, hsemi.2⟩
  · right
    exact hf

/-- Master refinement lemma for the `ResolveEntityNames` scan loop. -/
theorem resolveEntityNamesLoop_spec (v : List Nat) :
    ∀ fuel i n cob, v.length - i < fuel → n ≤ i → i ≤ v.length →
    entSpec (v.drop n) = sl v n i ++ entSpec (v.drop i) →
    (cob.copied = false → cob.buffer = v ∧ n = 0) →
    (resolveEntityNamesLoop v fuel cob n i).buffer =
      (if cob.copied then cob.buffer else []) ++ entSpec (v.drop n) := by
  intro fuel
  induction fuel with
  | zero => intro i n cob hfuel; omega
  | succ fuel ih =>
    intro i n cob hfuel hn hi hH huncop
    by_cases hlt : i < v.length
    · by_cases h38 : v.getD i 0 = 38
      · by_cases h35 : i + 1 < v.length ∧ v.getD (i + 1) 0 = 35
        · have hH' : entSpec (v.drop n) = sl v n (i + 1) ++ entSpec (v.drop (i + 1)) := by
            rw [hH, entSpec_hash v i hlt h38 h35, sl_snoc v n i hn hlt, h38]
            simp
          simp only [resolveEntityNamesLoop, if_pos hlt, if_pos h38,
            if_neg (not_not_intro h35)]
          exact ih (i + 1) n cob (by omega) (by omega) (by omega) hH' huncop
        · have hread := ReadWhile_spec v (i + 1) IsAlphaNumeric (by omega)
          have hsl := sl_takeWhile v (i + 1) IsAlphaNumeric
          simp only [resolveEntityNamesLoop, if_pos hlt, if_pos h38, if_pos h35, hread,
            decide_eq_true_eq]
          by_cases hcond : 0 < ((v.drop (i + 1)).takeWhile IsAlphaNumeric).length ∧
              i + 1 + ((v.drop (i + 1)).takeWhile IsAlphaNumeric).length < v.length ∧
              v.getD (i + 1 + ((v.drop (i + 1)).takeWhile IsAlphaNumeric).length) 0 = 59
          · rw [if_pos hcond, hsl]
            cases hlook : LookUpHTML5EntityByName ((v.drop (i + 1)).takeWhile IsAlphaNumeric) with
            | some characters =>
              simp only [hlook]
              have hbuf : ((cob.Write (sl v n i)).Write characters).buffer =
                  (if cob.copied then cob.buffer else []) ++ sl v n i ++ characters := by
                cases hcop : cob.copied <;> simp [CopyOnWriteBuffer.Write, hcop]
              have hcopied : ((cob.Write (sl v n i)).Write characters).copied = true := by
                cases hcop : cob.copied <;> simp [CopyOnWriteBuffer.Write, hcop]
              have ihres := ih (i + 1 + ((v.drop (i + 1)).takeWhile IsAlphaNumeric).length + 1)
                (i + 1 + ((v.drop (i + 1)).takeWhile IsAlphaNumeric).length + 1)
                ((cob.Write (sl v n i)).Write characters)
                (by omega) (le_refl _) (by omega) (by rw [sl_self]; rfl)
                (by intro hc; rw [hcopied] at hc; cases hc)
              rw [ihres, hcopied, hbuf, hH,
                entSpec_amp_success v i hlt h38 h35 hcond.1 hcond.2.1 hcond.2.2
                  characters hlook]
              simp
            | none =>
              simp only [hlook]
              have hH' : entSpec (v.drop n) = sl v n (i + 1) ++ entSpec (v.drop (i + 1)) := by
                rw [hH, entSpec_amp_fail v i hlt h38 h35 (Or.inr hlook),
                  sl_snoc v n i hn hlt, h38]
                simp
              exact ih (i + 1) n cob (by omega) (by omega) (by omega) hH' huncop
          · rw [if_neg hcond]
            have hH' : entSpec (v.drop n) = sl v n (i + 1) ++ entSpec (v.drop (i + 1)) := by
              rw [hH, entSpec_amp_fail v i hlt h38 h35 (Or.inl hcond),
                sl_snoc v n i hn hlt, h38]
              simp
            exact ih (i + 1) n cob (by omega) (by omega) (by omega) hH' huncop
      · have hH' : entSpec (v.drop n) = sl v n (i + 1) ++ entSpec (v.drop (i + 1)) := by
          rw [hH, entSpec_pass v i hlt h38, sl_snoc v n i hn hlt]
          simp
        simp only [resolveEntityNamesLoop, if_pos hlt, if_neg h38]
        exact ih (i + 1) n cob (by omega) (by omega) (by omega) hH' huncop
    · have hiv : i = v.length := by omega
      subst hiv
      simp only [resolveEntityNamesLoop, if_neg hlt]
      rw [List.drop_length] at hH
      cases hcop : cob.copied with
      | true =>
        have hw : (cob.Write (sl v n v.length)).buffer = cob.buffer ++ sl v n v.length := by
          simp [CopyOnWriteBuffer.Write, hcop]
        simp [CopyOnWriteBuffer.IsCopied, hcop, hw, hH, entSpec]
      | false =>
        obtain ⟨hbuf, hn0⟩ := huncop hcop
        subst hn0
        simp only [CopyOnWriteBuffer.IsCopied, hcop]
        rw [hH]
        simp [entSpec, sl_zero, hbuf]

/-- `ResolveEntityNames` equals its per-reference specification recursion. -/
theorem resolveEntityNames_eq_spec (source : List Nat) :
    ResolveEntityNames source = entSpec source := by
  have h := resolveEntityNamesLoop_spec source (source.length + 1) 0 0
    (NewCopyOnWriteBuffer source) (by omega) (le_refl _) (Nat.zero_le _)
    (by rw [sl_self]; rfl) (fun _ => ⟨rfl, rfl⟩)
  simpa [ResolveEntityNames, ResolveEntityNamesCob, CopyOnWriteBuffer.Bytes,
    NewCopyOnWriteBuffer] using h

theorem entSpec_quot (w : List Nat) :
    entSpec (38 :: 113 :: 117 :: 111 :: 116 :: 59 :: w) = 34 :: entSpec w := by
  rw [entSpec]
  simp +decide [List.takeWhile_cons, LookUpHTML5EntityByName]

theorem entSpec_ltref (w : List Nat) :
    entSpec (38 :: 108 :: 116 :: 59 :: w) = 60 :: entSpec w := by
  rw [entSpec]
  simp +decide [List.takeWhile_cons, LookUpHTML5EntityByName]

theorem entSpec_gtref (w : List Nat) :
    entSpec (38 :: 103 :: 116 :: 59 :: w) = 62 :: entSpec w := by
  rw [entSpec]
  simp +decide [List.takeWhile_cons, LookUpHTML5EntityByName]

theorem entSpec_plain (c : Nat) (hc : c ≠ 38) (w : List Nat) :
    entSpec (c :: w) = c :: entSpec w := by
  rw [entSpec]
  rw [if_neg (fun hcc => hc hcc.1)]

theorem escRepr_plain (c : Nat) (h34 : c ≠ 34) (h38 : c ≠ 38) (h60 : c ≠ 60)
    (h62 : c ≠ 62) : escRepr c = [c] := by
  simp [escRepr, htmlEscapeTable, h34, h38, h60, h62]

/-- Decoding the named references undoes the escaping, byte run by byte run. -/
theorem entSpec_flatMap_escRepr (v : List Nat) (h : (38 : Nat) ∉ v) :
    entSpec (v.flatMap escRepr) = v := by
  induction v with
  | nil => simp [entSpec]
  | cons c rest ih =>
    have hc38 : c ≠ 38 := fun hc => h (by simp [hc])
    have ih' := ih (fun hm => h (List.mem_cons_of_mem _ hm))
    rw [List.flatMap_cons]
    by_cases h34 : c = 34
    · subst h34
      rw [show escRepr 34 = [38, 113, 117, 111, 116, 59] from rfl]
      simp only [List.cons_append, List.nil_append]
      rw [entSpec_quot, ih']
    · by_cases h60 : c = 60
      · subst h60
        rw [show escRepr 60 = [38, 108, 116, 59] from rfl]
        simp only [List.cons_append, List.nil_append]
        rw [entSpec_ltref, ih']
      · by_cases h62 : c = 62
        · subst h62
          rw [show escRepr 62 = [38, 103, 116, 59] from rfl]
          simp only [List.cons_append, List.nil_append]
          rw [entSpec_gtref, ih']
        · rw [escRepr_plain c h34 hc38 h60 h62]
          simp only [List.singleton_append]
          rw [entSpec_plain c hc38, ih']

/-- C6: for every input containing no literal `&` byte, `EscapeHTML`
followed by the decoding of the four named references (`ResolveEntityNames`)
reproduces the original input exactly. -/
theorem escapeHTML_resolveEntityNames_roundtrip (v : List Nat)
    (h : (38 : Nat) ∉ v) : ResolveEntityNames (EscapeHTML v) = v := by
  rw [escapeHTML_eq_flatMap, resolveEntityNames_eq_spec, entSpec_flatMap_escRepr v h]

theorem escapeHTML_resolveEntityNames_roundtrip_witness :
    ResolveEntityNames (EscapeHTML [97, 34, 60, 62, 98]) = [97, 34, 60, 62, 98] :=
  escapeHTML_resolveEntityNames_roundtrip [97, 34, 60, 62, 98] (by decide)

/-! ## C4: membership filter correctness for add-built filters -/

theorem and_shift_ne_zero_iff (x i : Nat) :
    (x &&& (1 <<< i) ≠ 0) ↔ x.testBit i = true := by
  rw [Nat.one_shiftLeft, Nat.and_two_pow]
  cases h : x.testBit i <;> simp [h]

theorem and_mask_or (a x i : Nat) (h : a &&& (1 <<< i) ≠ 0) :
    (a ||| x) &&& (1 <<< i) ≠ 0 := by
  rw [and_shift_ne_zero_iff] at h ⊢
  simp [Nat.testBit_or, h]

theorem and_mask_set (a i : Nat) : (a ||| (1 <<< i)) &&& (1 <<< i) ≠ 0 := by
  rw [and_shift_ne_zero_iff]
  simp [Nat.testBit_or, Nat.one_shiftLeft, Nat.testBit_two_pow_self]

theorem getD_set_ne {α : Type} (l : List α) (j j' : Nat) (x d : α) (h : j ≠ j') :
    (l.set j x).getD j' d = l.getD j' d := by
  rw [List.getD_eq_getElem?_getD, List.getElem?_set_ne h, ← List.getD_eq_getElem?_getD]

theorem getD_set_self {α : Type} (l : List α) (j : Nat) (x d : α) (h : j < l.length) :
    (l.set j x).getD j d = x := by
  rw [List.getD_eq_getElem?_getD, List.getElem?_set_self (by simpa using h)]
  rfl

theorem getD_append_last {α : Type} (l : List α) (x d : α) :
    (l ++ [x]).getD l.length d = x := by
  rw [List.getD_eq_getElem?_getD, List.getElem?_append_right (le_refl _)]
  simp

theorem getD_append_lt {α : Type} (l tail : List α) (j : Nat) (d : α) (h : j < l.length) :
    (l ++ tail).getD j d = l.getD j d := by
  rw [List.getD_eq_getElem?_getD, List.getElem?_append_left h, ← List.getD_eq_getElem?_getD]

theorem getD_replicate {α : Type} (m k : Nat) (x d : α) (h : k < m) :
    (List.replicate m x).getD k d = x := by
  rw [List.getD_eq_getElem?_getD, List.getElem?_replicate]
  simp [h]

/-- Unfolding equation for `bytesFilter.Add`. -/
theorem bytesFilter.Add_eq (st : Store) (f : bytesFilter) (b : List Nat) :
    bytesFilter.Add st f b =
      ((goAppend st (f.slots.getD (bytesHash b % f.slots.length) none) b).1,
       { chars := (List.range (if b.length < f.threshold then b.length else f.threshold)).foldl
           (fun ch i => fun c => if c = b.getD i 0 then ch c ||| (1 <<< i) else ch c) f.chars,
         threshold := f.threshold,
         slots := f.slots.set (bytesHash b % f.slots.length)
           (some (goAppend st (f.slots.getD (bytesHash b % f.slots.length) none) b).2) }) :=
  rfl

theorem goAppend_none (st : Store) (x : List Nat) :
    goAppend st none x = (st ++ [⟨[x], 1⟩], ⟨st.length, 1⟩) := rfl

theorem goAppend_inplace (st : Store) (s : GoSlice) (x : List Nat)
    (h : s.len < (st.getD s.aid ⟨[], 0⟩).cap) :
    goAppend st (some s) x =
      (st.set s.aid ⟨writeCell (st.getD s.aid ⟨[], 0⟩).cells s.len x,
        (st.getD s.aid ⟨[], 0⟩).cap⟩, ⟨s.aid, s.len + 1⟩) := by
  simp only [goAppend]
  rw [if_pos h]

theorem goAppend_grow (st : Store) (s : GoSlice) (x : List Nat)
    (h : ¬ s.len < (st.getD s.aid ⟨[], 0⟩).cap) :
    goAppend st (some s) x =
      (st ++ [⟨(st.getD s.aid ⟨[], 0⟩).cells.take s.len ++ [x],
        if (st.getD s.aid ⟨[], 0⟩).cap = 0 then 1 else 2 * (st.getD s.aid ⟨[], 0⟩).cap⟩],
       ⟨st.length, s.len + 1⟩) := by
  simp only [goAppend]
  rw [if_neg h]

theorem FilterInv_empty :
    FilterInv [] { chars := fun _ => 0, threshold := 3, slots := List.replicate 64 none }
      [] := by
  refine ⟨rfl, by simp, ?_, ?_, ?_, ?_⟩
  · intro k hk
    rw [getD_replicate 64 k none none hk]
    rfl
  · intro k hk s hs
    rw [getD_replicate 64 k none none hk] at hs
    cases hs
  · intro k k' hk hk' hne s s' hs hs'
    rw [getD_replicate 64 k none none hk] at hs
    cases hs
  · intro b hb
    cases hb

theorem addChars_mono (b : List Nat) (l : List Nat) (chars : Nat → Nat) (c i0 : Nat)
    (h : chars c &&& (1 <<< i0) ≠ 0) :
    (l.foldl (fun ch i => fun c' => if c' = b.getD i 0 then ch c' ||| (1 <<< i) else ch c')
      chars) c &&& (1 <<< i0) ≠ 0 := by
  induction l generalizing chars with
  | nil => exact h
  | cons j rest ih =>
    simp only [List.foldl_cons]
    apply ih
    by_cases hc : c = b.getD j 0
    · simp only [if_pos hc]
      exact and_mask_or _ _ _ h
    · simp only [if_neg hc]
      exact h

theorem addChars_sets (b : List Nat) (m : Nat) (chars : Nat → Nat) (i : Nat) (hi : i < m) :
    ((List.range m).foldl
      (fun ch j => fun c' => if c' = b.getD j 0 then ch c' ||| (1 <<< j) else ch c')
      chars) (b.getD i 0) &&& (1 <<< i) ≠ 0 := by
  induction m with
  | zero => omega
  | succ m ih =>
    rw [List.range_succ, List.foldl_append, List.foldl_cons, List.foldl_nil]
    by_cases him : i < m
    · by_cases hc : b.getD i 0 = b.getD m 0
      · simp only [if_pos hc]
        exact and_mask_or _ _ _ (ih him)
      · simp only [if_neg hc]
        exact ih him
    · have him' : i = m := by omega
      subst him'
      simp only [if_pos rfl]
      exact and_mask_set _ _

/-- Core preservation argument: if the new store and the new slot header
relate to the old ones as one `Add` call makes them, the invariant carries
over to `added ++ [b]`. -/
theorem FilterInv_add_core (st stn : Store) (f : bytesFilter) (added : List (List Nat))
    (b : List Nat) (newSl : GoSlice)
    (hInv : FilterInv st f added)
    (hnew : slotEntries stn (some newSl) =
      slotEntries st (f.slots.getD (bytesHash b % 64) none) ++ [b])
    (hnewb : newSl.aid < stn.length ∧
      (stn.getD newSl.aid ⟨[], 0⟩).cells.length = newSl.len)
    (hother : ∀ k, k < 64 → k ≠ bytesHash b % 64 → ∀ s',
      f.slots.getD k none = some s' →
        stn.getD s'.aid ⟨[], 0⟩ = st.getD s'.aid ⟨[], 0⟩ ∧ s'.aid < stn.length)
    (hfresh : ∀ k, k < 64 → k ≠ bytesHash b % 64 → ∀ s',
      f.slots.getD k none = some s' → s'.aid ≠ newSl.aid) :
    FilterInv stn
      { chars := (List.range (if b.length < f.threshold then b.length else f.threshold)).foldl
          (fun ch i => fun c => if c = b.getD i 0 then ch c ||| (1 <<< i) else ch c) f.chars,
        threshold := f.threshold,
        slots := f.slots.set (bytesHash b % 64) (some newSl) }
      (added ++ [b]) := by
  obtain ⟨thr, nslots, entries, bounds, inj, mask⟩ := hInv
  have hb64 : bytesHash b % 64 < 64 := Nat.mod_lt _ (by norm_num)
  have hblen : bytesHash b % 64 < f.slots.length := by rw [nslots]; exact hb64
  refine ⟨thr, by simp [List.length_set, nslots], ?_, ?_, ?_, ?_⟩
  · intro k hk
    by_cases hkh : k = bytesHash b % 64
    · subst hkh
      rw [getD_set_self _ _ _ _ hblen, hnew, entries _ hk, List.filter_append]
      simp
    · rw [getD_set_ne _ _ _ _ _ (Ne.symm hkh), List.filter_append]
      have hent := entries k hk
      cases hslot' : f.slots.getD k none with
      | none =>
        rw [hslot'] at hent
        simp only [slotEntries] at hent ⊢
        rw [← hent]
        have hne' : ¬ bytesHash b % 64 = k := fun hc => hkh hc.symm
        simp [List.filter_cons, hne']
      | some s' =>
        have hoth := hother k hk hkh s' hslot'
        rw [hslot'] at hent
        simp only [slotEntries] at hent ⊢
        rw [hoth.1, hent]
        have hne' : ¬ bytesHash b % 64 = k := fun hc => hkh hc.symm
        simp [List.filter_cons, hne']
  · intro k hk s hs
    by_cases hkh : k = bytesHash b % 64
    · subst hkh
      rw [getD_set_self _ _ _ _ hblen] at hs
      cases hs
      exact hnewb
    · rw [getD_set_ne _ _ _ _ _ (Ne.symm hkh)] at hs
      have hb := bounds k hk s hs
      have hoth := hother k hk hkh s hs
      exact ⟨hoth.2, by rw [hoth.1]; exact hb.2⟩
  · intro k k' hk hk' hne s s' hs hs'
    by_cases hkh : k = bytesHash b % 64 <;> by_cases hkh' : k' = bytesHash b % 64
    · exact absurd (hkh.trans hkh'.symm) hne
    · subst hkh
      rw [getD_set_self _ _ _ _ hblen] at hs
      rw [getD_set_ne _ _ _ _ _ (Ne.symm hkh')] at hs'
      cases hs
      exact Ne.symm (hfresh k' hk' hkh' s' hs')
    · subst hkh'
      rw [getD_set_self _ _ _ _ hblen] at hs'
      rw [getD_set_ne _ _ _ _ _ (Ne.symm hkh)] at hs
      cases hs'
      exact hfresh k hk hkh s hs
    · rw [getD_set_ne _ _ _ _ _ (Ne.symm hkh)] at hs
      rw [getD_set_ne _ _ _ _ _ (Ne.symm hkh')] at hs'
      exact inj k k' hk hk' hne s s' hs hs'
  · intro b' hb' i hi
    rcases List.mem_append.mp hb' with hmem | hmem
    · exact addChars_mono b _ f.chars _ i (mask b' hmem i hi)
    · have hb'b : b' = b := by simpa using hmem
      subst hb'b
      have hm : (if b'.length < f.threshold then b'.length else f.threshold) =
          min b'.length 3 := by
        rw [thr]
        by_cases hbl : b'.length < 3
        · rw [if_pos hbl]; omega
        · rw [if_neg hbl]; omega
      simp only [hm]
      exact addChars_sets b' (min b'.length 3) f.chars i hi

/-- One `Add` call preserves the invariant. -/
theorem FilterInv_add (st : Store) (f : bytesFilter) (added : List (List Nat))
    (b : List Nat) (hInv : FilterInv st f added) :
    FilterInv (bytesFilter.Add st f b).1 (bytesFilter.Add st f b).2 (added ++ [b]) := by
  have nslots := hInv.nslots
  have hb64 : bytesHash b % 64 < 64 := Nat.mod_lt _ (by norm_num)
  rw [bytesFilter.Add_eq, nslots]
  cases hslot : f.slots.getD (bytesHash b % 64) none with
  | none =>
    rw [goAppend_none]
    apply FilterInv_add_core st _ f added b _ hInv
    · rw [hslot]
      simp only [slotEntries]
      rw [getD_append_last]
      simp
    · refine ⟨by simp, ?_⟩
      rw [getD_append_last]
      rfl
    · intro k hk hkh s' hs'
      have hbs := hInv.bounds k hk s' hs'
      refine ⟨getD_append_lt _ _ _ _ hbs.1, ?_⟩
      simp only [List.length_append, List.length_cons, List.length_nil]
      omega
    · intro k hk hkh s' hs'
      have hbs := hInv.bounds k hk s' hs'
      simp only []
      omega
  | some s =>
    have hb := hInv.bounds _ hb64 s hslot
    have hlen : (st.getD s.aid ⟨[], 0⟩).cells.length = s.len := hb.2
    by_cases hcap : s.len < (st.getD s.aid ⟨[], 0⟩).cap
    · rw [goAppend_inplace st s b hcap]
      have hwc : writeCell (st.getD s.aid ⟨[], 0⟩).cells s.len b =
          (st.getD s.aid ⟨[], 0⟩).cells ++ [b] := by
        rw [writeCell, if_neg (by omega)]
      have h1 : ((st.getD s.aid ⟨[], 0⟩).cells ++ [b]).take (s.len + 1) =
          (st.getD s.aid ⟨[], 0⟩).cells ++ [b] :=
        List.take_of_length_le (by rw [List.length_append, hlen]; simp)
      have h2 : (st.getD s.aid ⟨[], 0⟩).cells.take s.len = (st.getD s.aid ⟨[], 0⟩).cells :=
        List.take_of_length_le (by rw [hlen])
      apply FilterInv_add_core st _ f added b _ hInv
      · rw [hslot]
        simp only [slotEntries]
        rw [getD_set_self _ _ _ _ hb.1, hwc, h1, h2]
      · refine ⟨by simp only [List.length_set]; exact hb.1, ?_⟩
        rw [getD_set_self _ _ _ _ hb.1]
        simp only [hwc, List.length_append, hlen, List.length_cons, List.length_nil]
      · intro k hk hkh s' hs'
        have hbs' := hInv.bounds k hk s' hs'
        have hne : s'.aid ≠ s.aid :=
          hInv.inj k (bytesHash b % 64) hk hb64 hkh s' s hs' hslot
        refine ⟨getD_set_ne _ _ _ _ _ (Ne.symm hne), ?_⟩
        simp only [List.length_set]
        exact hbs'.1
      · intro k hk hkh s' hs'
        exact hInv.inj k (bytesHash b % 64) hk hb64 hkh s' s hs' hslot
    · rw [goAppend_grow st s b hcap]
      have h2 : (st.getD s.aid ⟨[], 0⟩).cells.take s.len = (st.getD s.aid ⟨[], 0⟩).cells :=
        List.take_of_length_le (by rw [hlen])
      have h1 : ((st.getD s.aid ⟨[], 0⟩).cells ++ [b]).take (s.len + 1) =
          (st.getD s.aid ⟨[], 0⟩).cells ++ [b] :=
        List.take_of_length_le (by rw [List.length_append, hlen]; simp)
      apply FilterInv_add_core st _ f added b _ hInv
      · rw [hslot]
        simp only [slotEntries]
        rw [getD_append_last]
        simp only [h2]
        rw [h1]
      · refine ⟨by simp, ?_⟩
        rw [getD_append_last]
        simp only [h2, List.length_append, hlen, List.length_cons, List.length_nil]
      · intro k hk hkh s' hs'
        have hbs' := hInv.bounds k hk s' hs'
        refine ⟨getD_append_lt _ _ _ _ hbs'.1, ?_⟩
        simp only [List.length_append, List.length_cons, List.length_nil]
        omega
      · intro k hk hkh s' hs'
        have hbs' := hInv.bounds k hk s' hs'
        simp only []
        omega

/-- The invariant holds along any fold of `Add` calls. -/
theorem FilterInv_build_aux (els : List (List Nat)) :
    ∀ st f added, FilterInv st f added →
      FilterInv (els.foldl (fun p element => bytesFilter.Add p.1 p.2 element) (st, f)).1
        (els.foldl (fun p element => bytesFilter.Add p.1 p.2 element) (st, f)).2
        (added ++ els) := by
  induction els with
  | nil => intro st f added h; simpa using h
  | cons e rest ih =>
    intro st f added h
    simp only [List.foldl_cons]
    have hres := ih (bytesFilter.Add st f e).1 (bytesFilter.Add st f e).2 (added ++ [e])
      (FilterInv_add st f added e h)
    simpa [List.append_assoc] using hres

/-- A filter built by `NewBytesFilter` satisfies the invariant for exactly
its constructor elements. -/
theorem FilterInv_new (els : List (List Nat)) :
    FilterInv (NewBytesFilter [] els).1 (NewBytesFilter [] els).2 els := by
  have h := FilterInv_build_aux els []
    { chars := fun _ => 0, threshold := 3, slots := List.replicate 64 none } [] FilterInv_empty
  simpa [NewBytesFilter] using h

/-- Unfolding equation for `bytesFilter.Contains`. -/
theorem bytesFilter.Contains_eq (st : Store) (f : bytesFilter) (b : List Nat) :
    bytesFilter.Contains st f b =
      (if (List.range (if b.length < f.threshold then b.length else f.threshold)).all
          (fun i => f.chars (b.getD i 0) &&& (1 <<< i) ≠ 0) then
        match f.slots.getD (bytesHash b % f.slots.length) none with
        | none => false
        | some slot =>
          if ((st.getD slot.aid ⟨[], 0⟩).cells.take slot.len).length = 0 then false
          else ((st.getD slot.aid ⟨[], 0⟩).cells.take slot.len).any
            (fun element => element = b)
      else false) := rfl

/-- On an invariant-satisfying filter, a true `Contains` answer means the
queried sequence was added, byte for byte. -/
theorem contains_mem (st : Store) (f : bytesFilter) (added : List (List Nat))
    (q : List Nat) (hInv : FilterInv st f added)
    (h : bytesFilter.Contains st f q = true) : q ∈ added := by
  have hb64 : bytesHash q % 64 < 64 := Nat.mod_lt _ (by norm_num)
  rw [bytesFilter.Contains_eq, hInv.nslots] at h
  by_cases hmask : ((List.range (if q.length < f.threshold then q.length else f.threshold)).all
      (fun i => decide (f.chars (q.getD i 0) &&& (1 <<< i) ≠ 0)) = true)
  · rw [if_pos hmask] at h
    cases hslot : f.slots.getD (bytesHash q % 64) none with
    | none =>
      rw [hslot] at h
      dsimp only at h
      cases h
    | some slot =>
      rw [hslot] at h
      dsimp only at h
      by_cases hlen : ((st.getD slot.aid ⟨[], 0⟩).cells.take slot.len).length = 0
      · rw [if_pos hlen] at h
        cases h
      · rw [if_neg hlen] at h
        obtain ⟨e, he, heq2⟩ := List.any_eq_true.mp h
        have hent := hInv.entries (bytesHash q % 64) hb64
        rw [hslot] at hent
        have hel : e ∈ added.filter (fun b => bytesHash b % 64 = bytesHash q % 64) := by
          rw [← hent]
          exact he
        have heqq : e = q := by simpa using heq2
        rw [← heqq]
        exact (List.mem_filter.mp hel).1
  · rw [if_neg hmask] at h
    cases h

/-- On an invariant-satisfying filter, every added sequence is contained. -/
theorem contains_of_mem (st : Store) (f : bytesFilter) (added : List (List Nat))
    (q : List Nat) (hInv : FilterInv st f added) (hq : q ∈ added) :
    bytesFilter.Contains st f q = true := by
  have hb64 : bytesHash q % 64 < 64 := Nat.mod_lt _ (by norm_num)
  rw [bytesFilter.Contains_eq, hInv.nslots]
  have hmask : ((List.range (if q.length < f.threshold then q.length else f.threshold)).all
      (fun i => decide (f.chars (q.getD i 0) &&& (1 <<< i) ≠ 0)) = true) := by
    apply List.all_eq_true.mpr
    intro i hi
    have hm' := List.mem_range.mp hi
    rw [hInv.thr] at hm'
    have hi' : i < min q.length 3 := by
      by_cases hq3 : q.length < 3
      · rw [if_pos hq3] at hm'; omega
      · rw [if_neg hq3] at hm'; omega
    simpa using hInv.mask q hq i hi'
  rw [if_pos hmask]
  have hent := hInv.entries (bytesHash q % 64) hb64
  cases hslot : f.slots.getD (bytesHash q % 64) none with
  | none =>
    rw [hslot] at hent
    exfalso
    have hqin : q ∈ added.filter (fun b => bytesHash b % 64 = bytesHash q % 64) :=
      List.mem_filter.mpr ⟨hq, by simp⟩
    rw [← hent] at hqin
    cases hqin
  | some slot =>
    dsimp only
    rw [hslot] at hent
    have hqelems : q ∈ (st.getD slot.aid ⟨[], 0⟩).cells.take slot.len := by
      have hmem : q ∈ slotEntries st (some slot) := by
        rw [hent]
        exact List.mem_filter.mpr ⟨hq, by simp⟩
      exact hmem
    rw [if_neg (by
      intro hzero
      rw [List.length_eq_zero.mp hzero] at hqelems
      cases hqelems)]
    exact List.any_eq_true.mpr ⟨q, hqelems, by simp⟩

/-- C4: for every filter built by `Add` calls from `NewBytesFilter` and every
sequence `b`, `Contains(b)` is true immediately after `Add(b)`; and
`Contains(q)` is true only if a byte-for-byte equal sequence was previously
added — the prefix mask and hash buckets can reject but never produce a
wrong true answer. -/
theorem bytesFilter_contains_correct (els : List (List Nat)) (b q : List Nat) :
    bytesFilter.Contains
        (bytesFilter.Add (NewBytesFilter [] els).1 (NewBytesFilter [] els).2 b).1
        (bytesFilter.Add (NewBytesFilter [] els).1 (NewBytesFilter [] els).2 b).2 b = true ∧
    (bytesFilter.Contains (NewBytesFilter [] els).1 (NewBytesFilter [] els).2 q = true →
      q ∈ els) :=
  ⟨contains_of_mem _ _ (els ++ [b]) b
      (FilterInv_add _ _ els b (FilterInv_new els)) (by simp),
   fun h => contains_mem _ _ els q (FilterInv_new els) h⟩

theorem bytesFilter_contains_correct_witness :
    bytesFilter.Contains
        (bytesFilter.Add (NewBytesFilter [] [[1, 2]]).1 (NewBytesFilter [] [[1, 2]]).2 [3]).1
        (bytesFilter.Add (NewBytesFilter [] [[1, 2]]).1 (NewBytesFilter [] [[1, 2]]).2 [3]).2
        [3] = true ∧
    [1, 2] ∈ [[1, 2]] :=
  ⟨(bytesFilter_contains_correct [[1, 2]] [3] [1, 2]).1,
   (bytesFilter_contains_correct [[1, 2]] [3] [1, 2]).2 (by decide)⟩

/-! ## Support lemmas for the `URLEscape` overrun analysis: writes to an
already-copied buffer append, the scan's output accumulates over a copied
buffer, and the scan from a given position only reads positions from there
on. -/

theorem Write_copied (buf s : List Nat) :
    CopyOnWriteBuffer.Write ⟨buf, true⟩ s = ⟨buf ++ s, true⟩ := by
  simp [CopyOnWriteBuffer.Write]

theorem getElem_opt_eq_of_getD_eq (v w : List Nat) (hlen : w.length = v.length) (j : Nat)
    (h : w.getD j 0 = v.getD j 0) : w[j]? = v[j]? := by
  by_cases hj : j < v.length
  · rw [List.getElem?_eq_getElem (show j < w.length by omega), List.getElem?_eq_getElem hj]
    rw [List.getD_eq_getElem w 0 (show j < w.length by omega),
      List.getD_eq_getElem v 0 hj] at h
    exact congrArg some h
  · rw [List.getElem?_eq_none (show v.length ≤ j by omega),
      List.getElem?_eq_none (show w.length ≤ j by omega)]

theorem sl_congr (v w : List Nat) (k : Nat) (hlen : w.length = v.length)
    (h : ∀ j, k < j → w.getD j 0 = v.getD j 0) (a b : Nat) (ha : k < a) :
    sl w a b = sl v a b := by
  apply List.ext_getElem?
  intro m
  rw [sl, sl, List.getElem?_drop, List.getElem?_drop, List.getElem?_take, List.getElem?_take]
  by_cases hm : a + m < b
  · rw [if_pos hm, if_pos hm]
    exact getElem_opt_eq_of_getD_eq v w hlen (a + m) (h (a + m) (by omega))
  · rw [if_neg hm, if_neg hm]

theorem urlEscapeLoop_copied_append (v : List Nat) :
    ∀ fuel buf n i,
      urlEscapeLoop v fuel ⟨buf, true⟩ n i
        = ⟨buf ++ (urlEscapeLoop v fuel ⟨[], true⟩ n i).buffer, true⟩ := by
  intro fuel
  induction fuel with
  | zero => intro buf n i; simp [urlEscapeLoop]
  | succ fuel ih =>
    intro buf n i
    by_cases hi : i < v.length
    case neg =>
      by_cases hn : n < v.length
      · simp [urlEscapeLoop, hi, hn, CopyOnWriteBuffer.IsCopied, Write_copied]
      · simp [urlEscapeLoop, hi, hn, CopyOnWriteBuffer.IsCopied]
    case pos =>
      simp only [urlEscapeLoop, if_pos hi]
      repeat' split
      all_goals try exact ih buf n (i + 1)
      all_goals try exact ih buf n (i + 3)
      all_goals try exact ih buf (i + 1) (i + 1)
      all_goals
        simp only [Write_copied, List.nil_append]
        rw [ih]
        conv_rhs => rw [ih]
        simp [List.append_assoc]

theorem urlEscapeLoop_congr (v w : List Nat) (k : Nat) (hlen : w.length = v.length)
    (h : ∀ j, k < j → w.getD j 0 = v.getD j 0) :
    ∀ fuel cob n i, k < n → k < i →
      urlEscapeLoop w fuel cob n i = urlEscapeLoop v fuel cob n i := by
  intro fuel
  induction fuel with
  | zero => intro cob n i _ _; rfl
  | succ fuel ih =>
    intro cob n i hn hi'
    have hc : w.getD i 0 = v.getD i 0 := h i hi'
    have hc1 : w.getD (i + 1) 0 = v.getD (i + 1) 0 := h (i + 1) (by omega)
    have hsl1 : sl w n i = sl v n i := sl_congr v w k hlen h n i hn
    have hsl2 : sl w n v.length = sl v n v.length := sl_congr v w k hlen h n v.length hn
    have hsl3 : ∀ m, sl w i m = sl v i m := fun m => sl_congr v w k hlen h i m hi'
    by_cases hi : i < v.length
    case neg =>
      have hiw : ¬ i < w.length := by omega
      simp only [urlEscapeLoop, hlen, hsl2, if_neg hi, if_neg hiw]
    case pos =>
      have hiw : i < w.length := by omega
      simp only [urlEscapeLoop, hlen, hc, hc1, hsl1, hsl2, hsl3, if_pos hi, if_pos hiw]
      repeat' split
      all_goals exact ih _ _ _ (by omega) (by omega)

theorem utf8len_multibyte_range (c : Nat) (h2 : 2 ≤ utf8lenTable.getD c 0)
    (h4 : utf8lenTable.getD c 0 ≤ 4) : 194 ≤ c ∧ c ≤ 247 := by
  by_cases hc : c < 256
  · have hfin : ∀ x : Fin 256, 2 ≤ utf8lenTable.getD x.val 0 →
        utf8lenTable.getD x.val 0 ≤ 4 → 194 ≤ x.val ∧ x.val ≤ 247 := by
      set_option maxRecDepth 10000 in decide
    exact hfin ⟨c, hc⟩ h2 h4
  · have hl : utf8lenTable.length = 256 := by
      set_option maxRecDepth 2000 in rfl
    rw [List.getD_eq_default _ _ (by omega)] at h2
    omega

theorem urlEscapeTable_multibyte_zero (c : Nat) (h1 : 194 ≤ c) (h2 : c ≤ 247) :
    urlEscapeTable.getD c 0 = 0 := by
  have hfin : ∀ x : Fin 256, 194 ≤ x.val → x.val ≤ 247 →
      urlEscapeTable.getD x.val 0 = 0 := by
    set_option maxRecDepth 10000 in decide
  exact hfin ⟨c, by omega⟩ h1 h2

/-- C2 (amended): a byte whose declared UTF-8 multi-byte length
`L = utf8lenTable[c] ∈ {2,3,4}` would run past the end of the remaining
input never fails the call, and is handled in one of three ways when the
scan classifies it at position `i` with pending-span start `n`. (1) If the
effective length — `L`, or `len(v) - 1` once the clamp at source lines
699-701 has fired — still overruns the remaining input, the scan flushes the
pending span `v[n:i]` (materializing the copy even when the span is empty,
so no earlier substitution is needed) and skips the byte: the result is the
materialized prefix, the flushed span, and the continuation from position
`i + 1`, and that continuation is unchanged when the overrun byte is
replaced by any other value — the byte is dropped, not passed through and
not escaped. (2) If the clamp has fired and the truncated window still fits
(the byte sits at position 0 or 1 of an input of length 2 or 3), the window
`v[i : i + len(v) - 1]` is percent-escaped — the byte is escaped, not
dropped. (3) Only when the whole input is the single overrun byte is the
original slice returned with no copy materialized — the sole case in which
the byte passes through raw. -/
theorem urlEscape_overrun_byte_handling :
    (∀ v cob n i fuel, n ≤ i → i < v.length →
      2 ≤ utf8lenTable.getD (v.getD i 0) 0 →
      utf8lenTable.getD (v.getD i 0) 0 ≤ 4 →
      1 ≤ (if v.length < utf8lenTable.getD (v.getD i 0) 0
            then v.length - 1 else utf8lenTable.getD (v.getD i 0) 0) →
      v.length < i + (if v.length < utf8lenTable.getD (v.getD i 0) 0
            then v.length - 1 else utf8lenTable.getD (v.getD i 0) 0) →
      ((urlEscapeLoop v (fuel + 1) cob n i).Bytes
          = (if cob.copied then cob.buffer else []) ++ sl v n i ++
            (urlEscapeLoop v fuel ⟨[], true⟩ (i + 1) (i + 1)).buffer ∧
        (urlEscapeLoop v (fuel + 1) cob n i).IsCopied = true ∧
        ∀ b', (urlEscapeLoop (v.set i b') fuel ⟨[], true⟩ (i + 1) (i + 1)).buffer
          = (urlEscapeLoop v fuel ⟨[], true⟩ (i + 1) (i + 1)).buffer)) ∧
    (∀ v cob n i fuel, n ≤ i → i < v.length →
      2 ≤ utf8lenTable.getD (v.getD i 0) 0 →
      utf8lenTable.getD (v.getD i 0) 0 ≤ 4 →
      v.length < utf8lenTable.getD (v.getD i 0) 0 →
      2 ≤ v.length → i + (v.length - 1) ≤ v.length →
      (urlEscapeLoop v (fuel + 1) cob n i).Bytes
        = (if cob.copied then cob.buffer else []) ++ sl v n i ++
          queryEscape (sl v i (i + (v.length - 1))) ++
          (urlEscapeLoop v fuel ⟨[], true⟩ (i + (v.length - 1))
            (i + (v.length - 1))).buffer) ∧
    (∀ b, 2 ≤ utf8lenTable.getD b 0 → utf8lenTable.getD b 0 ≤ 4 →
      URLEscape [b] false = [b] ∧ (URLEscapeCob [b] false).IsCopied = false) := by
  refine ⟨?_, ?_, ?_⟩
  · intro v cob n i fuel hn hi h2 h4 heff hov
    obtain ⟨hc194, hc247⟩ := utf8len_multibyte_range _ h2 h4
    have h0 : urlEscapeTable.getD (v.getD i 0) 0 = 0 :=
      urlEscapeTable_multibyte_zero _ hc194 hc247
    have hsafe : ¬ urlEscapeTable.getD (v.getD i 0) 0 = 1 := by omega
    have hpct : ¬ (v.getD i 0 = 37 ∧ i + 2 < v.length ∧
        IsHexDecimal (v.getD (i + 1) 0) ∧ IsHexDecimal (v.getD (i + 1) 0)) :=
      fun hcon => absurd hcon.1 (by omega)
    have h99 : ¬ utf8lenTable.getD (v.getD i 0) 0 = 99 := by omega
    have hsp : ¬ v.getD i 0 = 32 := by omega
    have hz : ¬ ((if v.length < utf8lenTable.getD (v.getD i 0) 0
        then v.length - 1 else utf8lenTable.getD (v.getD i 0) 0) = 0) := by omega
    have hstep : urlEscapeLoop v (fuel + 1) cob n i
        = urlEscapeLoop v fuel (cob.Write (sl v n i)) (i + 1) (i + 1) := by
      simp only [urlEscapeLoop, if_pos hi]
      rw [if_neg hsafe, if_neg hpct, if_neg h99, if_neg hsp, if_neg hz, if_pos hov]
    have hw : cob.Write (sl v n i)
        = ⟨(if cob.copied then cob.buffer else []) ++ sl v n i, true⟩ := by
      cases cob with
      | mk buf cp => cases cp <;> simp [CopyOnWriteBuffer.Write]
    refine ⟨?_, ?_, ?_⟩
    · rw [hstep, hw, urlEscapeLoop_copied_append]
      rfl
    · rw [hstep, hw, urlEscapeLoop_copied_append]
      rfl
    · intro b'
      exact congrArg CopyOnWriteBuffer.buffer
        (urlEscapeLoop_congr v (v.set i b') i (by simp)
          (fun j hj => getD_set_ne v i j b' 0 (by omega)) fuel ⟨[], true⟩
          (i + 1) (i + 1) (by omega) (by omega))
  · intro v cob n i fuel hn hi h2 h4 hclamp hlen2 hfit
    obtain ⟨hc194, hc247⟩ := utf8len_multibyte_range _ h2 h4
    have h0 : urlEscapeTable.getD (v.getD i 0) 0 = 0 :=
      urlEscapeTable_multibyte_zero _ hc194 hc247
    have hsafe : ¬ urlEscapeTable.getD (v.getD i 0) 0 = 1 := by omega
    have hpct : ¬ (v.getD i 0 = 37 ∧ i + 2 < v.length ∧
        IsHexDecimal (v.getD (i + 1) 0) ∧ IsHexDecimal (v.getD (i + 1) 0)) :=
      fun hcon => absurd hcon.1 (by omega)
    have h99 : ¬ utf8lenTable.getD (v.getD i 0) 0 = 99 := by omega
    have hsp : ¬ v.getD i 0 = 32 := by omega
    have hz : ¬ (v.length - 1 = 0) := by omega
    have hstop : ¬ (v.length < i + (v.length - 1)) := by omega
    have hstep : urlEscapeLoop v (fuel + 1) cob n i
        = urlEscapeLoop v fuel
            ((cob.Write (sl v n i)).Write (queryEscape (sl v i (i + (v.length - 1)))))
            (i + (v.length - 1)) (i + (v.length - 1)) := by
      simp only [urlEscapeLoop, if_pos hi, if_pos hclamp]
      rw [if_neg hsafe, if_neg hpct, if_neg h99, if_neg hsp, if_neg hz, if_neg hstop]
    have hw2 : (cob.Write (sl v n i)).Write (queryEscape (sl v i (i + (v.length - 1))))
        = ⟨(if cob.copied then cob.buffer else []) ++ sl v n i ++
            queryEscape (sl v i (i + (v.length - 1))), true⟩ := by
      cases cob with
      | mk buf cp => cases cp <;> simp [CopyOnWriteBuffer.Write]
    rw [hstep, hw2, urlEscapeLoop_copied_append]
    rfl
  · intro b hb2 hb4
    obtain ⟨hc194, _⟩ := utf8len_multibyte_range b hb2 hb4
    have hfin : ∀ x : Fin 256, 2 ≤ utf8lenTable.getD x.val 0 →
        utf8lenTable.getD x.val 0 ≤ 4 →
        URLEscape [x.val] false = [x.val] ∧
          (URLEscapeCob [x.val] false).IsCopied = false := by
      set_option maxRecDepth 10000 in decide
    exact hfin ⟨b, by omega⟩ hb2 hb4

theorem urlEscape_overrun_byte_handling_witness :
    URLEscape [97, 195] false = [97] ∧
    URLEscape [97, 97, 240] false = [97, 97] ∧
    URLEscape [227, 129] false = [37, 69, 51, 129] ∧
    URLEscape [240, 97, 98] false = [37, 70, 48, 97, 98] ∧
    URLEscape [224] false = [224] := by
  obtain ⟨hA, hB, hC⟩ := urlEscape_overrun_byte_handling
  refine ⟨?_, ?_, ?_, ?_, (hC 224 (by decide) (by decide)).1⟩
  · have h := (hA [97, 195] ⟨[97, 195], false⟩ 0 1 1 (by decide) (by decide)
      (by decide) (by decide) (by decide) (by decide)).1
    have e : URLEscape [97, 195] false
        = (urlEscapeLoop [97, 195] (1 + 1) ⟨[97, 195], false⟩ 0 1).Bytes := by decide
    rw [e, h]
    decide
  · have h := (hA [97, 97, 240] ⟨[97, 97, 240], false⟩ 0 2 1 (by decide) (by decide)
      (by decide) (by decide) (by decide) (by decide)).1
    have e : URLEscape [97, 97, 240] false
        = (urlEscapeLoop [97, 97, 240] (1 + 1) ⟨[97, 97, 240], false⟩ 0 2).Bytes := by
      decide
    rw [e, h]
    decide
  · have h := hB [227, 129] ⟨[227, 129], false⟩ 0 0 2 (by decide) (by decide)
      (by decide) (by decide) (by decide) (by decide) (by decide)
    have e : URLEscape [227, 129] false
        = (urlEscapeLoop [227, 129] (2 + 1) ⟨[227, 129], false⟩ 0 0).Bytes := by decide
    rw [e, h]
    decide
  · have h := hB [240, 97, 98] ⟨[240, 97, 98], false⟩ 0 0 3 (by decide) (by decide)
      (by decide) (by decide) (by decide) (by decide) (by decide)
    have e : URLEscape [240, 97, 98] false
        = (urlEscapeLoop [240, 97, 98] (3 + 1) ⟨[240, 97, 98], false⟩ 0 0).Bytes := by
      decide
    rw [e, h]
    decide

end GM
